import Mathlib

/-!
Verification of the raster-to-vector tracing engine of Obsidian-Elite V14
(`src/utils/imageUtils.ts`, `traceImageToSVG` and its inner helper
`isColorSimilar`).

The engine is embedded shallowly:

* a `PixelBuffer` is a width, a height and a row-major map from flat index
  to a packed 32-bit RGBA value (alpha in the highest byte, then blue,
  green, red — matching the source's channel extraction by right shifts);
* the visited mask of the source (`Uint8Array` of 0/1 flags) is embedded
  as the `Finset ℕ` of flat indices currently marked 1;
* the greedy `while` loops of the source become fuel-indexed structural
  recursions, the fuel being exactly the remaining room to the buffer
  edge, so that the fuel-zero case coincides with the edge test of the
  source's loop condition;
* the insertion-ordered `Map<number, string[]>` of path commands becomes
  an association list on which `pushPath` appends, preserving first
  occurrence order;
* the trace additionally records the stream of committed `RegionRect`s
  and the individually skipped transparent pixels, which the source
  leaves implicit, so that the spec-level claims about them can be
  stated;
* the floating-point arithmetic of the progress formula
  `Math.floor((processed / total) * 100)` and of the scale/target-size
  computation of lines 75-77 is embedded faithfully: `roundDouble` maps an
  exact rational to the nearest IEEE 754 binary64 value (53-bit
  significand, round to nearest, ties to even; every value these
  computations reach is in the normal range), and `jsDiv`/`jsMul` are the
  correctly rounded double division and multiplication;
* path-command numbers (`x - 0.2`, `w + 0.4`, …) are exact multiples of
  one tenth and are formatted by `fmtTenths` over that exact value;
  `(a / 255).toFixed(4)` is formatted by `fmtFixed4` as the nearest
  4-decimal rounding of the exact rational `a / 255` (no alpha value in
  0..255 produces a tie, so this agrees with the double computation).
-/

/-- Red channel of a packed 32-bit RGBA value: `color & 0xff`. -/
def redC (c : ℕ) : ℕ := c % 256

/-- Green channel: `(color >> 8) & 0xff`. -/
def greenC (c : ℕ) : ℕ := c / 2 ^ 8 % 256

/-- Blue channel: `(color >> 16) & 0xff`. -/
def blueC (c : ℕ) : ℕ := c / 2 ^ 16 % 256

/-- Alpha channel: `(color >> 24) & 0xff`. -/
def alphaC (c : ℕ) : ℕ := c / 2 ^ 24 % 256

/-- Embedding of the source's `isColorSimilar(color1, color2, tol)`
(src/utils/imageUtils.ts lines 94-107): exact equality short-circuits,
two near-transparent pixels (alpha below 2) are similar, otherwise the
alpha difference must be at most `tol` and then each of the three color
channels must differ by at most `tol`. -/
def isColorSimilar (color1 color2 tol : ℕ) : Bool :=
  if color1 = color2 then true
  else
    let a1 := alphaC color1
    let a2 := alphaC color2
    if a1 < 2 ∧ a2 < 2 then true
    else if tol < Nat.dist a1 a2 then false
    else
      decide (Nat.dist (redC color1) (redC color2) ≤ tol) &&
      decide (Nat.dist (greenC color1) (greenC color2) ≤ tol) &&
      decide (Nat.dist (blueC color1) (blueC color2) ≤ tol)

/-- A decoded pixel buffer: target width, target height, row-major packed
pixels (`data (y * W + x)` is the pixel at column `x`, row `y`). -/
structure PixelBuffer where
  W : ℕ
  H : ℕ
  data : ℕ → ℕ

/-- A committed greedy rectangle: origin `(x, y)`, extent `w × h`, and the
anchor pixel's exact packed color. -/
structure RegionRect where
  x : ℕ
  y : ℕ
  w : ℕ
  h : ℕ
  color : ℕ
deriving DecidableEq, Repr

/-- State of one trace invocation: the visited mask (as the set of flat
indices marked visited), the processed-pixel counter, and the accumulated
outputs (committed rectangles in commit order, individually skipped
transparent pixels in skip order, and the insertion-ordered per-color
path-command groups). -/
structure TraceState where
  visited : Finset ℕ
  processed : ℕ
  rects : List RegionRect
  skipped : List ℕ
  colorPaths : List (ℕ × List String)
deriving DecidableEq

/-- Initial state of a trace: nothing visited, nothing processed. -/
def initState : TraceState := ⟨∅, 0, [], [], []⟩

/-- Greedy horizontal growth (the source's
`while (x + rectW < targetWidth && !visited[idx + rectW] && isColorSimilar(color, data[idx + rectW], tol)) rectW++`):
`base` is the anchor's flat index, `w` the width grown so far and `fuel`
the remaining room `targetWidth - x - w` to the right edge, so fuel zero
is exactly the edge test. -/
def growWAux (data : ℕ → ℕ) (tol : ℕ) (visited : Finset ℕ) (color base : ℕ) :
    ℕ → ℕ → ℕ
  | w, 0 => w
  | w, fuel + 1 =>
    if base + w ∉ visited ∧ isColorSimilar color (data (base + w)) tol = true then
      growWAux data tol visited color base (w + 1) fuel
    else w

/-- Qualification test for one candidate row during vertical growth: every
pixel of the row segment `[rowBase, rowBase + rectW)` is unvisited and
tolerance-similar to the anchor color (the source's inner `for (dw …)`
loop). -/
def rowOk (data : ℕ → ℕ) (tol : ℕ) (visited : Finset ℕ) (color rowBase rectW : ℕ) :
    Bool :=
  (List.range rectW).all fun dw =>
    decide (rowBase + dw ∉ visited) && isColorSimilar color (data (rowBase + dw)) tol

/-- Greedy vertical growth (the source's
`while (canExpand && y + rectH < targetHeight)` loop): `rectH` is the
height grown so far and `fuel` the remaining room `targetHeight - y - rectH`
to the bottom edge. -/
def growHAux (data : ℕ → ℕ) (tol : ℕ) (visited : Finset ℕ)
    (color W x y rectW : ℕ) : ℕ → ℕ → ℕ
  | rectH, 0 => rectH
  | rectH, fuel + 1 =>
    if rowOk data tol visited color ((y + rectH) * W + x) rectW then
      growHAux data tol visited color W x y rectW (rectH + 1) fuel
    else rectH

/-- The rectangle grown from anchor `(x, y)` against a given visited mask:
width by `growWAux` with fuel `W - x`, then height by `growHAux` starting
at 1 with fuel `H - (y + 1)` (src/utils/imageUtils.ts lines 130-148). -/
def grownRect (buf : PixelBuffer) (tol : ℕ) (visited : Finset ℕ) (x y : ℕ) :
    ℕ × ℕ :=
  let idx := y * buf.W + x
  let color := buf.data idx
  let rectW := growWAux buf.data tol visited color idx 0 (buf.W - x)
  let rectH := growHAux buf.data tol visited color buf.W x y rectW 1 (buf.H - (y + 1))
  (rectW, rectH)

/-- Flat indices covered by a `rectW × rectH` rectangle anchored at
`(x, y)`, in the source's commit order (`vY` outer, `vX` inner). -/
def rectCells (W x y rectW rectH : ℕ) : List ℕ :=
  (List.range rectH).flatMap fun vY =>
    (List.range rectW).map fun vX => (y + vY) * W + (x + vX)

/-- Commit loop of the source (lines 151-159): fold over the covered cells
setting the visited flag and counting each cell that was not already
visited. -/
def commitCells (cells : List ℕ) (visited : Finset ℕ) (processed : ℕ) :
    Finset ℕ × ℕ :=
  cells.foldl
    (fun vp i => if i ∈ vp.1 then vp else (insert i vp.1, vp.2 + 1))
    (visited, processed)

/-- Formats an exact integer number of tenths the way the host language
prints the corresponding decimal: `-2 ↦ "-0.2"`, `24 ↦ "2.4"`,
`30 ↦ "3"`. -/
def fmtTenthsNat (n : ℕ) : String :=
  if n % 10 = 0 then toString (n / 10)
  else toString (n / 10) ++ "." ++ toString (n % 10)

/-- Signed version of `fmtTenthsNat`. -/
def fmtTenths (n : ℤ) : String :=
  if n < 0 then "-" ++ fmtTenthsNat n.natAbs else fmtTenthsNat n.natAbs

/-- Bled rectangle path command of the source (line 165):
`M${x-b},${y-b}h${rectW+b*2}v${rectH+b*2}h-${rectW+b*2}z` with `b = 0.2`,
all numbers being exact multiples of one tenth. -/
def rectPath (x y rectW rectH : ℕ) : String :=
  "M" ++ fmtTenths (10 * (x : ℤ) - 2) ++ "," ++ fmtTenths (10 * (y : ℤ) - 2) ++
  "h" ++ fmtTenths (10 * (rectW : ℤ) + 4) ++
  "v" ++ fmtTenths (10 * (rectH : ℤ) + 4) ++
  "h-" ++ fmtTenths (10 * (rectW : ℤ) + 4) ++ "z"

/-- Insertion-ordered update of the per-color path groups, embedding
`if (!colorPaths.has(color)) colorPaths.set(color, []); colorPaths.get(color)!.push(d)`:
append `d` to the existing group of `color`, or append a new group at the
end. -/
def pushPath : List (ℕ × List String) → ℕ → String → List (ℕ × List String)
  | [], color, d => [(color, [d])]
  | (c, l) :: rest, color, d =>
    if c = color then (c, l ++ [d]) :: rest
    else (c, l) :: pushPath rest color d

/-- Path groups built from a rectangle stream in commit order. -/
def buildPaths (rects : List RegionRect) : List (ℕ × List String) :=
  rects.foldl (fun cp r => pushPath cp r.color (rectPath r.x r.y r.w r.h)) []

/-- One iteration of the source's per-pixel scan body (lines 120-165):
skip if visited; mark-and-skip a near-transparent pixel; otherwise grow a
greedy rectangle, commit its cells, record it and push its bled path
command under the anchor color. -/
def stepPixel (buf : PixelBuffer) (tol y x : ℕ) (s : TraceState) : TraceState :=
  let idx := y * buf.W + x
  if idx ∈ s.visited then s
  else
    let color := buf.data idx
    if alphaC color < 2 then
      { s with
        visited := insert idx s.visited
        processed := s.processed + 1
        skipped := s.skipped ++ [idx] }
    else
      let r := grownRect buf tol s.visited x y
      let cells := rectCells buf.W x y r.1 r.2
      let vp := commitCells cells s.visited s.processed
      { visited := vp.1
        processed := vp.2
        rects := s.rects ++ [⟨x, y, r.1, r.2, color⟩]
        skipped := s.skipped
        colorPaths := pushPath s.colorPaths color (rectPath x y r.1 r.2) }

/-- One row of the scan: `for (x = 0; x < targetWidth; x++)`. -/
def processRow (buf : PixelBuffer) (tol y : ℕ) (s : TraceState) : TraceState :=
  (List.range buf.W).foldl (fun s x => stepPixel buf tol y x s) s

/-- A consecutive run of rows of the scan. -/
def processRows (buf : PixelBuffer) (tol : ℕ) (ys : List ℕ) (s : TraceState) :
    TraceState :=
  ys.foldl (fun s y => processRow buf tol y s) s

/-- Round a rational to the nearest integer with ties to even (the IEEE
754 rounding rule, applied here to a scaled significand). -/
def roundHalfEven (x : ℚ) : ℤ :=
  if x - ⌊x⌋ < 1 / 2 then ⌊x⌋
  else if 1 / 2 < x - ⌊x⌋ then ⌊x⌋ + 1
  else if 2 ∣ ⌊x⌋ then ⌊x⌋ else ⌊x⌋ + 1

/-- The IEEE 754 binary64 double nearest to a rational: a positive value
is rounded to 53 significant bits (round to nearest, ties to even), a
nonpositive one (only 0 arises in the engine) maps to 0. Every value the
engine computes lies well inside the normal double range, where this is
exactly the host's arithmetic. -/
def roundDouble (q : ℚ) : ℚ :=
  if 0 < q then
    (roundHalfEven (q * 2 ^ (52 - Int.log 2 q)) : ℚ) / 2 ^ (52 - Int.log 2 q)
  else 0

/-- Correctly rounded double division, the host's `a / b`. -/
def jsDiv (a b : ℚ) : ℚ := roundDouble (a / b)

/-- Correctly rounded double multiplication, the host's `a * b`. -/
def jsMul (a b : ℚ) : ℚ := roundDouble (a * b)

/-- Progress formula of the source,
`Math.floor((processed / total) * 100)`, over faithfully rounded binary64
arithmetic: the counts (held exactly by the host's doubles) are divided,
the quotient is scaled by 100, each operation correctly rounded, and the
floor is taken. For `total = 0` the host would produce NaN; the engine
only reports progress for nonempty grids. -/
def progressValue (processed total : ℕ) : ℕ :=
  (⌊jsMul (jsDiv (processed : ℚ) (total : ℚ)) 100⌋).toNat

/-- Batch loop of the source (lines 115-172): process 25 rows at a time
starting at `batchY`, reporting one progress value after each batch; the
fuel bounds the number of remaining batches (any fuel with
`H ≤ batchY + 25 * fuel` is exact). Returns the final state and the list
of progress values reported, in order. -/
def runBatches (buf : PixelBuffer) (tol : ℕ) : ℕ → ℕ → TraceState →
    TraceState × List ℕ
  | _, 0, s => (s, [])
  | batchY, fuel + 1, s =>
    if batchY < buf.H then
      let endY := min (batchY + 25) buf.H
      let s' := processRows buf tol (List.range' batchY (endY - batchY)) s
      let rest := runBatches buf tol (batchY + 25) fuel s'
      (rest.1, progressValue s'.processed (buf.W * buf.H) :: rest.2)
    else (s, [])

/-- A complete grow phase over a buffer: all batches from row 0 (fuel
`buf.H` is enough since every batch advances by 25 rows). -/
def traceRun (buf : PixelBuffer) (tol : ℕ) : TraceState × List ℕ :=
  runBatches buf tol 0 buf.H initState

/-- Final trace state of a buffer. -/
def traceFinal (buf : PixelBuffer) (tol : ℕ) : TraceState :=
  (traceRun buf tol).1

/-- Progress values reported while tracing a buffer, in order. -/
def traceProg (buf : PixelBuffer) (tol : ℕ) : List ℕ :=
  (traceRun buf tol).2

/-- Multiset of flat indices covered by the committed rectangles plus the
individually skipped transparent pixels of a state. -/
def coveredCells (W : ℕ) (s : TraceState) : List ℕ :=
  (s.rects.flatMap fun r => rectCells W r.x r.y r.w r.h) ++ s.skipped

/-- Embedding of `(a / 255).toFixed(4)` for an alpha byte `a`: the exact
rational `a / 255` rounded to the nearest 4-decimal value (never a tie
for `a` in 0..255) and zero-padded to 4 fractional digits. -/
def fmtFixed4 (a : ℕ) : String :=
  let n := (a * 20000 + 255) / 510
  let frac := n % 10000
  let pad :=
    if frac < 10 then "000" ++ toString frac
    else if frac < 100 then "00" ++ toString frac
    else if frac < 1000 then "0" ++ toString frac
    else toString frac
  toString (n / 10000) ++ "." ++ pad

/-- CSS color of a packed value as the serializer writes it (lines
176-180): `rgba(r,g,b,(a/255).toFixed(4))`. -/
def colorRGBA (color : ℕ) : String :=
  "rgba(" ++ toString (redC color) ++ "," ++ toString (greenC color) ++ "," ++
  toString (blueC color) ++ "," ++ fmtFixed4 (alphaC color) ++ ")"

/-- One serialized shape element (lines 184-186): concatenated path data,
fill and stroke both the anchor color, stroke width 0.5, rounded joins. -/
def pathElement (color : ℕ) (ds : List String) : String :=
  "<path d=\"" ++ String.join ds ++ "\" fill=\"" ++ colorRGBA color ++
  "\" stroke=\"" ++ colorRGBA color ++
  "\" stroke-width=\"0.5\" stroke-linejoin=\"round\" />"

/-- The serialized document (lines 189-198): the source's template
literal verbatim, with one shape element per accumulated color group. -/
def svgDocument (W H : ℕ) (shapes : List String) : String :=
  "<svg \n    xmlns=\"http://www.w3.org/2000/svg\" \n    viewBox=\"0 0 " ++
  toString W ++ " " ++ toString H ++ "\" \n    width=\"" ++ toString W ++
  "\" \n    height=\"" ++ toString H ++
  "\"\n    shape-rendering=\"crispEdges\"\n    style=\"background:transparent; display:block; image-rendering: -webkit-optimize-contrast; pointer-events: none;\"\n  >\n    " ++
  String.join shapes ++ "\n  </svg>"

/-- Shape elements of a finished state, in first-occurrence color order. -/
def buildShapes (cp : List (ℕ × List String)) : List String :=
  cp.map fun p => pathElement p.1 p.2

/-- The document produced by tracing a buffer. -/
def traceDocument (buf : PixelBuffer) (tol : ℕ) : String :=
  svgDocument buf.W buf.H (buildShapes (traceFinal buf tol).colorPaths)

/-- Error taxonomy of the trace entry point (spec section 7): source
decode failure, and rendering-context acquisition failure. -/
inductive TraceError where
  | loadError
  | runtimeError
deriving DecidableEq, Repr

/-- Entry-point control flow of `traceImageToSVG` (lines 67-83) with the
browser environment abstracted: `decoded` is the rasterizer's result
(`none` when the source image fails to decode, rejecting before any grow
work), `ctxOk` whether a 2d context is acquired (`throw` when not).
Returns the outcome together with the list of progress-callback values
invoked. -/
def traceImageToSVG (decoded : Option PixelBuffer) (ctxOk : Bool) (tol : ℕ) :
    Except TraceError String × List ℕ :=
  match decoded with
  | none => (Except.error TraceError.loadError, [])
  | some buf =>
    if ctxOk then
      (Except.ok (traceDocument buf tol), traceProg buf tol)
    else (Except.error TraceError.runtimeError, [])

/-- Scale computation of the source (line 75),
`Math.min(maxWidth / img.width, maxHeight / img.height, 1)`: the two
quotients are binary64 divisions, the minimum itself is exact. -/
def computeScale (srcW srcH maxW maxH : ℕ) : ℚ :=
  min (min (jsDiv (maxW : ℚ) (srcW : ℚ)) (jsDiv (maxH : ℚ) (srcH : ℚ))) 1

/-- Target raster dimensions of the source (lines 76-77):
`Math.floor(img.width * scale * options.superSample)`, the two
multiplications performed left to right in binary64. -/
def targetDims (srcW srcH maxW maxH ss : ℕ) : ℕ × ℕ :=
  let scale := computeScale srcW srcH maxW maxH
  ((⌊jsMul (jsMul (srcW : ℚ) scale) (ss : ℚ)⌋).toNat,
   (⌊jsMul (jsMul (srcH : ℚ) scale) (ss : ℚ)⌋).toNat)

/-- The dimension formula of the spec read over exact rational arithmetic
(`scale = min(maxWidth/srcW, maxHeight/srcH, 1)`,
`target = floor(src * scale * superSample)`), to be compared with the
source's double computation `targetDims`. -/
def computeScaleExact (srcW srcH maxW maxH : ℕ) : ℚ :=
  min (min ((maxW : ℚ) / srcW) ((maxH : ℚ) / srcH)) 1

/-- Exact-arithmetic reading of the claimed target dimensions. -/
def targetDimsExact (srcW srcH maxW maxH ss : ℕ) : ℕ × ℕ :=
  (⌊(srcW : ℚ) * computeScaleExact srcW srcH maxW maxH * ss⌋₊,
   ⌊(srcH : ℚ) * computeScaleExact srcW srcH maxW maxH * ss⌋₊)

/-- First-occurrence deduplication of a list (the key order of an
insertion-ordered map fed that list). -/
def dedupFirst : List ℕ → List ℕ
  | [] => []
  | a :: l => a :: dedupFirst (l.filter fun x => x ≠ a)
termination_by l => l.length
decreasing_by
  simp only [List.length_cons]
  exact Nat.lt_succ_of_le (List.length_filter_le _ _)

/-- Uniform opaque 2-by-2 buffer (opaque black) used as a concrete
instance. -/
def bufUniform : PixelBuffer := ⟨2, 2, fun _ => 4278190080⟩

/-- Single opaque pixel buffer. -/
def bufOne : PixelBuffer := ⟨1, 1, fun _ => 4278190080⟩

/-- Concrete 3-by-2 buffer for the tolerance/area analysis: top row
`A A B`, bottom row `A A X` with `A` opaque black, `B` opaque black with
red 5, `X` fully transparent. -/
def bufTolArea : PixelBuffer :=
  ⟨3, 2, fun i => [4278190080, 4278190080, 4278190085,
                   4278190080, 4278190080, 0].getD i 0⟩

/-- Concrete 2-by-1 buffer for the transparency analysis: an alpha-2
black pixel next to an alpha-1 black pixel. -/
def bufLowAlpha : PixelBuffer :=
  ⟨2, 1, fun i => [33554432, 16777216].getD i 0⟩

/-- Fully transparent 2-by-2 buffer. -/
def bufClear : PixelBuffer := ⟨2, 2, fun _ => 0⟩

/-- Adjacent near-transparent pair: alpha 0 with red 255 next to alpha 1
with red 99 (different RGB, both alphas below 2). -/
def bufPair : PixelBuffer := ⟨2, 1, fun i => [255, 16777315].getD i 0⟩

/-- A 1-by-50 buffer whose first greedy rectangle covers rows 0..28 (29
opaque black pixels, then opaque white): after the first 25-row batch the
processed count is 29 of 50. -/
def bufProg : PixelBuffer :=
  ⟨1, 50, fun i => if i < 29 then 4278190080 else 4294967295⟩

/-- Invariant carried through the grow phase: the visited mask is within
the grid and coincides with the multiset of cells covered by committed
rectangles and skips, that multiset has no duplicates, the processed
counter counts the visited pixels, committed rectangles are nonempty and
in bounds, and the path groups are exactly the groups built from the
rectangle stream. -/
structure TraceInv (buf : PixelBuffer) (s : TraceState) : Prop where
  bounded : ∀ i ∈ s.visited, i < buf.W * buf.H
  nodup : (coveredCells buf.W s).Nodup
  mem_iff : ∀ i, i ∈ s.visited ↔ i ∈ coveredCells buf.W s
  processed_eq : s.processed = s.visited.card
  rects_ok : ∀ r ∈ s.rects,
    1 ≤ r.w ∧ 1 ≤ r.h ∧ r.x + r.w ≤ buf.W ∧ r.y + r.h ≤ buf.H
  paths_eq : s.colorPaths = buildPaths s.rects

/-! ### Basic facts about the greedy growth loops -/

theorem isColorSimilar_self (c tol : ℕ) : isColorSimilar c c tol = true := by
  simp [isColorSimilar]

theorem isColorSimilar_mono {c1 c2 tol tol' : ℕ} (h : tol ≤ tol')
    (hs : isColorSimilar c1 c2 tol = true) : isColorSimilar c1 c2 tol' = true := by
  unfold isColorSimilar at hs ⊢
  by_cases he : c1 = c2
  · simp [he]
  · simp only [if_neg he] at hs ⊢
    by_cases ht : alphaC c1 < 2 ∧ alphaC c2 < 2
    · simp [ht]
    · simp only [if_neg ht] at hs ⊢
      by_cases hd : tol < Nat.dist (alphaC c1) (alphaC c2)
      · simp [hd] at hs
      · have hd' : ¬ tol' < Nat.dist (alphaC c1) (alphaC c2) := by omega
        simp only [if_neg hd] at hs
        simp only [if_neg hd']
        simp only [Bool.and_eq_true, decide_eq_true_eq] at hs ⊢
        omega

theorem growWAux_ge (data : ℕ → ℕ) (tol : ℕ) (v : Finset ℕ) (c b : ℕ) :
    ∀ (fuel w : ℕ), w ≤ growWAux data tol v c b w fuel := by
  intro fuel
  induction fuel with
  | zero => intro w; simp [growWAux]
  | succ n ih =>
    intro w
    simp only [growWAux]
    split
    · exact le_trans (Nat.le_succ w) (ih (w + 1))
    · exact le_refl w

theorem growWAux_le (data : ℕ → ℕ) (tol : ℕ) (v : Finset ℕ) (c b : ℕ) :
    ∀ (fuel w : ℕ), growWAux data tol v c b w fuel ≤ w + fuel := by
  intro fuel
  induction fuel with
  | zero => intro w; simp [growWAux]
  | succ n ih =>
    intro w
    simp only [growWAux]
    split
    · exact le_trans (ih (w + 1)) (by omega)
    · omega

theorem growWAux_prop (data : ℕ → ℕ) (tol : ℕ) (v : Finset ℕ) (c b : ℕ) :
    ∀ (fuel w j : ℕ), w ≤ j → j < growWAux data tol v c b w fuel →
      b + j ∉ v ∧ isColorSimilar c (data (b + j)) tol = true := by
  intro fuel
  induction fuel with
  | zero => intro w j h1 h2; simp [growWAux] at h2; omega
  | succ n ih =>
    intro w j h1 h2
    simp only [growWAux] at h2
    split at h2
    · rcases eq_or_lt_of_le h1 with rfl | hlt
      · assumption
      · exact ih (w + 1) j hlt h2
    · omega

theorem growWAux_all (data : ℕ → ℕ) (tol : ℕ) (v : Finset ℕ) (c b : ℕ) :
    ∀ (fuel w : ℕ),
      (∀ j, w ≤ j → j < w + fuel →
        b + j ∉ v ∧ isColorSimilar c (data (b + j)) tol = true) →
      growWAux data tol v c b w fuel = w + fuel := by
  intro fuel
  induction fuel with
  | zero => intro w _; simp [growWAux]
  | succ n ih =>
    intro w h
    simp only [growWAux]
    rw [if_pos (h w (le_refl w) (by omega))]
    rw [ih (w + 1) (fun j h1 h2 => h j (by omega) (by omega))]
    omega

theorem growWAux_mono (data : ℕ → ℕ) (tol tol' : ℕ) (v : Finset ℕ) (c b : ℕ)
    (h : tol ≤ tol') :
    ∀ (fuel w : ℕ),
      growWAux data tol v c b w fuel ≤ growWAux data tol' v c b w fuel := by
  intro fuel
  induction fuel with
  | zero => intro w; simp [growWAux]
  | succ n ih =>
    intro w
    simp only [growWAux]
    split
    · rename_i hc
      rw [if_pos ⟨hc.1, isColorSimilar_mono h hc.2⟩]
      exact ih (w + 1)
    · exact growWAux_ge data tol' v c b (n + 1) w

theorem rowOk_iff (data : ℕ → ℕ) (tol : ℕ) (v : Finset ℕ) (c rowBase rectW : ℕ) :
    rowOk data tol v c rowBase rectW = true ↔
      ∀ dw < rectW, rowBase + dw ∉ v ∧
        isColorSimilar c (data (rowBase + dw)) tol = true := by
  simp [rowOk, List.all_eq_true, List.mem_range]

theorem growHAux_ge (data : ℕ → ℕ) (tol : ℕ) (v : Finset ℕ) (c W x y rectW : ℕ) :
    ∀ (fuel rectH : ℕ), rectH ≤ growHAux data tol v c W x y rectW rectH fuel := by
  intro fuel
  induction fuel with
  | zero => intro rectH; simp [growHAux]
  | succ n ih =>
    intro rectH
    simp only [growHAux]
    split
    · exact le_trans (Nat.le_succ rectH) (ih (rectH + 1))
    · exact le_refl rectH

theorem growHAux_le (data : ℕ → ℕ) (tol : ℕ) (v : Finset ℕ) (c W x y rectW : ℕ) :
    ∀ (fuel rectH : ℕ),
      growHAux data tol v c W x y rectW rectH fuel ≤ rectH + fuel := by
  intro fuel
  induction fuel with
  | zero => intro rectH; simp [growHAux]
  | succ n ih =>
    intro rectH
    simp only [growHAux]
    split
    · exact le_trans (ih (rectH + 1)) (by omega)
    · omega

theorem growHAux_prop (data : ℕ → ℕ) (tol : ℕ) (v : Finset ℕ) (c W x y rectW : ℕ) :
    ∀ (fuel rectH j : ℕ), rectH ≤ j →
      j < growHAux data tol v c W x y rectW rectH fuel →
      rowOk data tol v c ((y + j) * W + x) rectW = true := by
  intro fuel
  induction fuel with
  | zero => intro rectH j h1 h2; simp [growHAux] at h2; omega
  | succ n ih =>
    intro rectH j h1 h2
    simp only [growHAux] at h2
    split at h2
    · rcases eq_or_lt_of_le h1 with rfl | hlt
      · assumption
      · exact ih (rectH + 1) j hlt h2
    · omega

theorem growHAux_all (data : ℕ → ℕ) (tol : ℕ) (v : Finset ℕ) (c W x y rectW : ℕ) :
    ∀ (fuel rectH : ℕ),
      (∀ j, rectH ≤ j → j < rectH + fuel →
        rowOk data tol v c ((y + j) * W + x) rectW = true) →
      growHAux data tol v c W x y rectW rectH fuel = rectH + fuel := by
  intro fuel
  induction fuel with
  | zero => intro rectH _; simp [growHAux]
  | succ n ih =>
    intro rectH h
    simp only [growHAux]
    rw [if_pos (h rectH (le_refl rectH) (by omega))]
    rw [ih (rectH + 1) (fun j h1 h2 => h j (by omega) (by omega))]
    omega

/-! ### Commit loop and rectangle cell lemmas -/

theorem commitCells_cons (a : ℕ) (t : List ℕ) (v : Finset ℕ) (p : ℕ) :
    commitCells (a :: t) v p =
      if a ∈ v then commitCells t v p else commitCells t (insert a v) (p + 1) := by
  by_cases ha : a ∈ v <;> simp [commitCells, ha]

theorem commitCells_mem (cells : List ℕ) :
    ∀ (v : Finset ℕ) (p i : ℕ),
      i ∈ (commitCells cells v p).1 ↔ i ∈ v ∨ i ∈ cells := by
  induction cells with
  | nil => intro v p i; simp [commitCells]
  | cons a t ih =>
    intro v p i
    rw [commitCells_cons]
    by_cases ha : a ∈ v
    · rw [if_pos ha, ih]
      simp only [List.mem_cons]
      constructor
      · rintro (h | h)
        · exact Or.inl h
        · exact Or.inr (Or.inr h)
      · rintro (h | rfl | h)
        · exact Or.inl h
        · exact Or.inl ha
        · exact Or.inr h
    · rw [if_neg ha, ih]
      simp only [Finset.mem_insert, List.mem_cons]
      tauto

theorem commitCells_card (cells : List ℕ) :
    ∀ (v : Finset ℕ) (p : ℕ), p = v.card →
      (commitCells cells v p).2 = (commitCells cells v p).1.card := by
  induction cells with
  | nil => intro v p h; simpa [commitCells] using h
  | cons a t ih =>
    intro v p h
    rw [commitCells_cons]
    by_cases ha : a ∈ v
    · rw [if_pos ha]; exact ih v p h
    · rw [if_neg ha]
      exact ih (insert a v) (p + 1) (by rw [Finset.card_insert_of_not_mem ha, h])

theorem commitCells_processed_ge (cells : List ℕ) :
    ∀ (v : Finset ℕ) (p : ℕ), p ≤ (commitCells cells v p).2 := by
  induction cells with
  | nil => intro v p; simp [commitCells]
  | cons a t ih =>
    intro v p
    rw [commitCells_cons]
    by_cases ha : a ∈ v
    · rw [if_pos ha]; exact ih v p
    · rw [if_neg ha]; exact le_trans (Nat.le_succ p) (ih (insert a v) (p + 1))

theorem mem_rectCells (W x y rectW rectH i : ℕ) :
    i ∈ rectCells W x y rectW rectH ↔
      ∃ vY, vY < rectH ∧ ∃ vX, vX < rectW ∧ i = (y + vY) * W + (x + vX) := by
  simp only [rectCells, List.mem_flatMap, List.mem_map, List.mem_range]
  constructor
  · rintro ⟨vY, hY, vX, hX, rfl⟩
    exact ⟨vY, hY, vX, hX, rfl⟩
  · rintro ⟨vY, hY, vX, hX, rfl⟩
    exact ⟨vY, hY, vX, hX, rfl⟩

theorem rectCells_lt_row (W x y rectW rectH : ℕ) (hx : x + rectW ≤ W) :
    ∀ i ∈ rectCells W x y rectW rectH, i < (y + rectH) * W := by
  intro i hi
  rw [mem_rectCells] at hi
  obtain ⟨vY, hY, vX, hX, rfl⟩ := hi
  calc (y + vY) * W + (x + vX) < (y + vY) * W + W := by omega
    _ = (y + vY + 1) * W := by ring
    _ ≤ (y + rectH) * W := Nat.mul_le_mul_right W (by omega)

theorem rectCells_nodup (W x y rectW rectH : ℕ) (hx : x + rectW ≤ W) :
    (rectCells W x y rectW rectH).Nodup := by
  induction rectH with
  | zero => simp [rectCells]
  | succ n ih =>
    have hsplit : rectCells W x y rectW (n + 1) =
        rectCells W x y rectW n ++
          (List.range rectW).map fun vX => (y + n) * W + (x + vX) := by
      simp [rectCells, List.range_succ]
    rw [hsplit, List.nodup_append]
    refine ⟨ih, ?_, ?_⟩
    · refine List.Nodup.map ?_ (List.nodup_range rectW)
      intro a b hab
      have hab' : (y + n) * W + (x + a) = (y + n) * W + (x + b) := hab
      omega
    · intro i hi hj
      have hlt := rectCells_lt_row W x y rectW n hx i hi
      simp only [List.mem_map, List.mem_range] at hj
      obtain ⟨vX, hvX, he⟩ := hj
      have hge : (y + n) * W + (x + vX) = i := he
      omega

theorem rectCells_lt_grid (W H x y rectW rectH : ℕ) (hx : x + rectW ≤ W)
    (hy : y + rectH ≤ H) : ∀ i ∈ rectCells W x y rectW rectH, i < W * H := by
  intro i hi
  have h1 := rectCells_lt_row W x y rectW rectH hx i hi
  calc i < (y + rectH) * W := h1
    _ ≤ H * W := Nat.mul_le_mul_right W hy
    _ = W * H := Nat.mul_comm H W

theorem anchor_mem_rectCells (W x y rectW rectH : ℕ) (hw : 1 ≤ rectW)
    (hh : 1 ≤ rectH) : y * W + x ∈ rectCells W x y rectW rectH := by
  rw [mem_rectCells]
  exact ⟨0, by omega, 0, by omega, by ring⟩

/-! ### Generic fold machinery -/

theorem foldl_pres {α β : Type _} (P : α → Prop) (f : α → β → α) :
    ∀ (l : List β) (s : α), P s → (∀ s b, b ∈ l → P s → P (f s b)) →
      P (l.foldl f s) := by
  intro l
  induction l with
  | nil => intro s hs _; simpa using hs
  | cons a t ih =>
    intro s hs h
    exact ih (f s a) (h s a (by simp) hs)
      (fun s b hb => h s b (by simp [hb]))

theorem foldl_est {α β : Type _} (P : β → α → Prop) (f : α → β → α) :
    ∀ (l : List β) (s : α),
      (∀ s b, b ∈ l → P b (f s b)) →
      (∀ s b b', b ∈ l → P b' s → P b' (f s b)) →
      ∀ b ∈ l, P b (l.foldl f s) := by
  intro l
  induction l with
  | nil => intro s _ _ b hb; simp at hb
  | cons a t ih =>
    intro s hest hpres b hb
    rcases List.mem_cons.1 hb with rfl | hbt
    · exact foldl_pres (P b) f t (f s b) (hest s b (by simp))
        (fun s' b' hb' => hpres s' b' b (by simp [hb']))
    · exact ih (f s a) (fun s' b' hb' => hest s' b' (by simp [hb']))
        (fun s' b' b'' hb' => hpres s' b' b'' (by simp [hb'])) b hbt

theorem foldl_chain_from {α β : Type _} (R : α → α → Prop)
    (htrans : ∀ a b c, R a b → R b c → R a c) (f : α → β → α) :
    ∀ (l : List β) (s s₀ : α), R s₀ s → (∀ s b, b ∈ l → R s (f s b)) →
      R s₀ (l.foldl f s) := by
  intro l
  induction l with
  | nil => intro s s₀ h0 _; simpa using h0
  | cons a t ih =>
    intro s s₀ h0 h
    exact ih (f s a) s₀ (htrans _ _ _ h0 (h s a (by simp)))
      (fun s' b hb => h s' b (by simp [hb]))

theorem foldl_chain {α β : Type _} (R : α → α → Prop)
    (htrans : ∀ a b c, R a b → R b c → R a c) (f : α → β → α) :
    ∀ (l : List β) (s : α), R s s → (∀ s b, b ∈ l → R s (f s b)) →
      R s (l.foldl f s) := by
  intro l s hrefl h
  exact foldl_chain_from R htrans f l s s hrefl h

theorem foldl_congr_mem {α β : Type _} (f g : α → β → α) :
    ∀ (l : List β) (s : α), (∀ s b, b ∈ l → f s b = g s b) →
      l.foldl f s = l.foldl g s := by
  intro l
  induction l with
  | nil => intro s _; simp
  | cons a t ih =>
    intro s h
    simp only [List.foldl_cons]
    rw [h s a (by simp)]
    exact ih (g s a) (fun s' b hb => h s' b (by simp [hb]))

theorem foldl_fixed {α β : Type _} (f : α → β → α) :
    ∀ (l : List β) (s : α), (∀ b ∈ l, f s b = s) → l.foldl f s = s := by
  intro l
  induction l with
  | nil => intro s _; simp
  | cons a t ih =>
    intro s h
    simp only [List.foldl_cons, h a (by simp)]
    exact ih s (fun b hb => h b (by simp [hb]))

/-! ### Case laws for one scan step -/

theorem grid_lt {W H y x : ℕ} (hy : y < H) (hx : x < W) : y * W + x < W * H :=
  calc y * W + x < y * W + W := by omega
    _ = (y + 1) * W := by ring
    _ ≤ H * W := Nat.mul_le_mul_right W (by omega)
    _ = W * H := Nat.mul_comm H W

theorem stepPixel_of_visited (buf : PixelBuffer) (tol y x : ℕ) (s : TraceState)
    (hv : y * buf.W + x ∈ s.visited) : stepPixel buf tol y x s = s := by
  simp [stepPixel, hv]

theorem stepPixel_of_transparent (buf : PixelBuffer) (tol y x : ℕ)
    (s : TraceState) (hv : y * buf.W + x ∉ s.visited)
    (ha : alphaC (buf.data (y * buf.W + x)) < 2) :
    stepPixel buf tol y x s =
      { s with
        visited := insert (y * buf.W + x) s.visited
        processed := s.processed + 1
        skipped := s.skipped ++ [y * buf.W + x] } := by
  simp [stepPixel, hv, ha]

theorem stepPixel_of_grow (buf : PixelBuffer) (tol y x : ℕ) (s : TraceState)
    (hv : y * buf.W + x ∉ s.visited)
    (ha : ¬ alphaC (buf.data (y * buf.W + x)) < 2) :
    stepPixel buf tol y x s =
      { visited :=
          (commitCells
            (rectCells buf.W x y (grownRect buf tol s.visited x y).1
              (grownRect buf tol s.visited x y).2) s.visited s.processed).1
        processed :=
          (commitCells
            (rectCells buf.W x y (grownRect buf tol s.visited x y).1
              (grownRect buf tol s.visited x y).2) s.visited s.processed).2
        rects := s.rects ++
          [⟨x, y, (grownRect buf tol s.visited x y).1,
            (grownRect buf tol s.visited x y).2, buf.data (y * buf.W + x)⟩]
        skipped := s.skipped
        colorPaths := pushPath s.colorPaths (buf.data (y * buf.W + x))
          (rectPath x y (grownRect buf tol s.visited x y).1
            (grownRect buf tol s.visited x y).2) } := by
  simp [stepPixel, hv, ha]

theorem grownRect_pos (buf : PixelBuffer) (tol : ℕ) (v : Finset ℕ) (x y : ℕ)
    (hx : x < buf.W) (hv : y * buf.W + x ∉ v) :
    1 ≤ (grownRect buf tol v x y).1 ∧ 1 ≤ (grownRect buf tol v x y).2 := by
  have hW : buf.W - x = (buf.W - x - 1) + 1 := by omega
  constructor
  · show 1 ≤ growWAux buf.data tol v (buf.data (y * buf.W + x))
      (y * buf.W + x) 0 (buf.W - x)
    rw [hW]
    simp only [growWAux]
    rw [if_pos ⟨by simpa using hv, by simpa using isColorSimilar_self _ tol⟩]
    exact growWAux_ge buf.data tol v _ _ (buf.W - x - 1) 1
  · exact growHAux_ge buf.data tol v _ buf.W x y _ (buf.H - (y + 1)) 1

theorem grownRect_spec (buf : PixelBuffer) (tol : ℕ) (v : Finset ℕ) (x y : ℕ)
    (hx : x < buf.W) (hy : y < buf.H) (hv : y * buf.W + x ∉ v) :
    1 ≤ (grownRect buf tol v x y).1 ∧
    x + (grownRect buf tol v x y).1 ≤ buf.W ∧
    1 ≤ (grownRect buf tol v x y).2 ∧
    y + (grownRect buf tol v x y).2 ≤ buf.H ∧
    (∀ i ∈ rectCells buf.W x y (grownRect buf tol v x y).1
        (grownRect buf tol v x y).2, i ∉ v) := by
  have hW : buf.W - x = (buf.W - x - 1) + 1 := by omega
  set idx := y * buf.W + x with hidx
  set c := buf.data idx with hc
  set rectW := growWAux buf.data tol v c idx 0 (buf.W - x) with hrW
  set rectH := growHAux buf.data tol v c buf.W x y rectW 1 (buf.H - (y + 1))
    with hrH
  have hgr : grownRect buf tol v x y = (rectW, rectH) := rfl
  have hw1 : 1 ≤ rectW := by
    rw [hrW, hW]
    simp only [growWAux]
    rw [if_pos ⟨by simpa using hv, by simpa using isColorSimilar_self c tol⟩]
    exact growWAux_ge buf.data tol v c idx (buf.W - x - 1) 1
  have hw2 : x + rectW ≤ buf.W := by
    have := growWAux_le buf.data tol v c idx (buf.W - x) 0
    rw [← hrW] at this
    omega
  have hh1 : 1 ≤ rectH := growHAux_ge buf.data tol v c buf.W x y rectW
    (buf.H - (y + 1)) 1
  have hh2 : y + rectH ≤ buf.H := by
    have := growHAux_le buf.data tol v c buf.W x y rectW (buf.H - (y + 1)) 1
    rw [← hrH] at this
    omega
  have hfresh : ∀ i ∈ rectCells buf.W x y rectW rectH, i ∉ v := by
    intro i hi
    rw [mem_rectCells] at hi
    obtain ⟨vY, hvY, vX, hvX, rfl⟩ := hi
    rcases Nat.eq_zero_or_pos vY with rfl | hpos
    · have := (growWAux_prop buf.data tol v c idx (buf.W - x) 0 vX (by omega)
        (by rw [← hrW]; omega)).1
      have harith : (y + 0) * buf.W + (x + vX) = idx + vX := by
        rw [hidx]; ring
      rw [harith]
      exact this
    · have hrow := growHAux_prop buf.data tol v c buf.W x y rectW
        (buf.H - (y + 1)) 1 vY (by omega) (by rw [← hrH]; omega)
      rw [rowOk_iff] at hrow
      have := (hrow vX hvX).1
      have harith : (y + vY) * buf.W + (x + vX) =
          ((y + vY) * buf.W + x) + vX := by ring
      rw [harith]
      exact this
  rw [hgr]
  exact ⟨hw1, hw2, hh1, hh2, hfresh⟩

/-! ### Invariant preservation -/

theorem initState_inv (buf : PixelBuffer) : TraceInv buf initState := by
  constructor
  · intro i hi; simp [initState] at hi
  · simp [initState, coveredCells]
  · intro i; simp [initState, coveredCells]
  · simp [initState]
  · intro r hr; simp [initState] at hr
  · simp [initState, buildPaths]

theorem buildPaths_append_single (rects : List RegionRect) (r : RegionRect) :
    buildPaths (rects ++ [r]) =
      pushPath (buildPaths rects) r.color (rectPath r.x r.y r.w r.h) := by
  simp [buildPaths, List.foldl_append]

theorem stepPixel_inv (buf : PixelBuffer) (tol y x : ℕ) (s : TraceState)
    (hx : x < buf.W) (hy : y < buf.H) (hInv : TraceInv buf s) :
    TraceInv buf (stepPixel buf tol y x s) := by
  by_cases hv : y * buf.W + x ∈ s.visited
  · rw [stepPixel_of_visited buf tol y x s hv]; exact hInv
  by_cases ha : alphaC (buf.data (y * buf.W + x)) < 2
  · rw [stepPixel_of_transparent buf tol y x s hv ha]
    have hcov : coveredCells buf.W
        { s with
          visited := insert (y * buf.W + x) s.visited
          processed := s.processed + 1
          skipped := s.skipped ++ [y * buf.W + x] } =
        coveredCells buf.W s ++ [y * buf.W + x] := by
      simp [coveredCells, List.append_assoc]
    have hidxcov : y * buf.W + x ∉ coveredCells buf.W s := by
      rw [← hInv.mem_iff]; exact hv
    constructor
    · intro i hi
      simp only [Finset.mem_insert] at hi
      rcases hi with rfl | hi
      · exact grid_lt hy hx
      · exact hInv.bounded i hi
    · rw [hcov, List.nodup_append]
      refine ⟨hInv.nodup, List.nodup_singleton _, ?_⟩
      intro i hi hj
      simp only [List.mem_singleton] at hj
      subst hj
      exact hidxcov hi
    · intro i
      rw [hcov]
      simp only [Finset.mem_insert, List.mem_append, List.mem_singleton]
      rw [hInv.mem_iff i]
      tauto
    · simp only [Finset.card_insert_of_not_mem hv]
      rw [hInv.processed_eq]
    · intro r hr; exact hInv.rects_ok r hr
    · simpa using hInv.paths_eq
  · rw [stepPixel_of_grow buf tol y x s hv ha]
    obtain ⟨hw1, hw2, hh1, hh2, hfresh⟩ :=
      grownRect_spec buf tol s.visited x y hx hy hv
    set r := grownRect buf tol s.visited x y with hr
    set cells := rectCells buf.W x y r.1 r.2 with hcells
    have hnodupcells : cells.Nodup := rectCells_nodup buf.W x y r.1 r.2 hw2
    have hcellslt : ∀ i ∈ cells, i < buf.W * buf.H :=
      rectCells_lt_grid buf.W buf.H x y r.1 r.2 hw2 hh2
    have hmem : ∀ i, i ∈ (commitCells cells s.visited s.processed).1 ↔
        i ∈ s.visited ∨ i ∈ cells :=
      fun i => commitCells_mem cells s.visited s.processed i
    set s' : TraceState :=
      { visited := (commitCells cells s.visited s.processed).1
        processed := (commitCells cells s.visited s.processed).2
        rects := s.rects ++
          [⟨x, y, r.1, r.2, buf.data (y * buf.W + x)⟩]
        skipped := s.skipped
        colorPaths := pushPath s.colorPaths (buf.data (y * buf.W + x))
          (rectPath x y r.1 r.2) } with hs'
    have hcovperm : (coveredCells buf.W s').Perm (coveredCells buf.W s ++ cells) := by
      have h1 : coveredCells buf.W s' =
          ((s.rects.flatMap fun rr => rectCells buf.W rr.x rr.y rr.w rr.h) ++
            cells) ++ s.skipped := by
        simp [hs', coveredCells]
      have h2 : ((s.rects.flatMap fun rr => rectCells buf.W rr.x rr.y rr.w rr.h) ++
            cells) ++ s.skipped =
          (s.rects.flatMap fun rr => rectCells buf.W rr.x rr.y rr.w rr.h) ++
            (cells ++ s.skipped) := List.append_assoc _ _ _
      have h3 : ((s.rects.flatMap fun rr => rectCells buf.W rr.x rr.y rr.w rr.h) ++
            (cells ++ s.skipped)).Perm
          ((s.rects.flatMap fun rr => rectCells buf.W rr.x rr.y rr.w rr.h) ++
            (s.skipped ++ cells)) :=
        List.Perm.append_left _ List.perm_append_comm
      have h4 : (s.rects.flatMap fun rr => rectCells buf.W rr.x rr.y rr.w rr.h) ++
            (s.skipped ++ cells) = coveredCells buf.W s ++ cells := by
        rw [coveredCells, List.append_assoc]
      rw [h1, h2, ← h4]
      exact h3
    constructor
    · intro i hi
      rw [hs'] at hi
      simp only at hi
      rcases (hmem i).1 hi with h | h
      · exact hInv.bounded i h
      · exact hcellslt i h
    · rw [hcovperm.nodup_iff]
      rw [List.nodup_append]
      refine ⟨hInv.nodup, hnodupcells, ?_⟩
      intro i hi hj
      exact hfresh i hj ((hInv.mem_iff i).2 hi)
    · intro i
      rw [hcovperm.mem_iff]
      rw [hs']
      simp only [List.mem_append]
      rw [hmem i, hInv.mem_iff i]
    · rw [hs']
      simp only
      exact commitCells_card cells s.visited s.processed hInv.processed_eq
    · intro rr hrr
      rw [hs'] at hrr
      simp only [List.mem_append, List.mem_singleton] at hrr
      rcases hrr with h | rfl
      · exact hInv.rects_ok rr h
      · exact ⟨hw1, hh1, hw2, hh2⟩
    · rw [hs']
      simp only
      rw [buildPaths_append_single, hInv.paths_eq]

theorem stepPixel_visited_sub (buf : PixelBuffer) (tol y x : ℕ)
    (s : TraceState) : s.visited ⊆ (stepPixel buf tol y x s).visited := by
  by_cases hv : y * buf.W + x ∈ s.visited
  · rw [stepPixel_of_visited buf tol y x s hv]
  by_cases ha : alphaC (buf.data (y * buf.W + x)) < 2
  · rw [stepPixel_of_transparent buf tol y x s hv ha]
    exact Finset.subset_insert _ _
  · rw [stepPixel_of_grow buf tol y x s hv ha]
    intro i hi
    simp only
    rw [commitCells_mem]
    exact Or.inl hi

theorem stepPixel_processed_le (buf : PixelBuffer) (tol y x : ℕ)
    (s : TraceState) : s.processed ≤ (stepPixel buf tol y x s).processed := by
  by_cases hv : y * buf.W + x ∈ s.visited
  · rw [stepPixel_of_visited buf tol y x s hv]
  by_cases ha : alphaC (buf.data (y * buf.W + x)) < 2
  · rw [stepPixel_of_transparent buf tol y x s hv ha]
    simp
  · rw [stepPixel_of_grow buf tol y x s hv ha]
    exact commitCells_processed_ge _ s.visited s.processed

theorem stepPixel_self_visited (buf : PixelBuffer) (tol y x : ℕ)
    (s : TraceState) (hx : x < buf.W) :
    y * buf.W + x ∈ (stepPixel buf tol y x s).visited := by
  by_cases hv : y * buf.W + x ∈ s.visited
  · rw [stepPixel_of_visited buf tol y x s hv]; exact hv
  by_cases ha : alphaC (buf.data (y * buf.W + x)) < 2
  · rw [stepPixel_of_transparent buf tol y x s hv ha]
    exact Finset.mem_insert_self _ _
  · rw [stepPixel_of_grow buf tol y x s hv ha]
    simp only
    rw [commitCells_mem]
    right
    obtain ⟨h1, h2⟩ := grownRect_pos buf tol s.visited x y hx hv
    exact anchor_mem_rectCells buf.W x y _ _ h1 h2

/-! ### Lifting to rows, row runs and batches -/

theorem mem_range'_iff (s n i : ℕ) : i ∈ List.range' s n ↔ s ≤ i ∧ i < s + n := by
  simp only [List.mem_range']
  constructor
  · rintro ⟨j, hj, rfl⟩; omega
  · rintro ⟨h1, h2⟩; exact ⟨i - s, by omega, by omega⟩

theorem processRow_pres (buf : PixelBuffer) (tol y : ℕ) (P : TraceState → Prop)
    (hstep : ∀ s x, x < buf.W → P s → P (stepPixel buf tol y x s))
    (s : TraceState) (hs : P s) : P (processRow buf tol y s) := by
  refine foldl_pres P _ (List.range buf.W) s hs ?_
  intro s' b hb hP
  exact hstep s' b (List.mem_range.1 hb) hP

theorem processRows_pres (buf : PixelBuffer) (tol : ℕ) (ys : List ℕ)
    (P : TraceState → Prop)
    (hstep : ∀ s y x, y ∈ ys → x < buf.W → P s → P (stepPixel buf tol y x s))
    (s : TraceState) (hs : P s) : P (processRows buf tol ys s) := by
  refine foldl_pres P _ ys s hs ?_
  intro s' y hy hP
  exact processRow_pres buf tol y P (fun s'' x hx hP' => hstep s'' y x hy hx hP')
    s' hP

theorem runBatches_pres (buf : PixelBuffer) (tol : ℕ) (P : TraceState → Prop)
    (hstep : ∀ s y x, y < buf.H → x < buf.W → P s → P (stepPixel buf tol y x s)) :
    ∀ (fuel batchY : ℕ) (s : TraceState), P s →
      P (runBatches buf tol batchY fuel s).1 := by
  intro fuel
  induction fuel with
  | zero => intro batchY s hs; simpa [runBatches] using hs
  | succ n ih =>
    intro batchY s hs
    by_cases hb : batchY < buf.H
    · simp only [runBatches, if_pos hb]
      refine ih (batchY + 25) _ ?_
      refine processRows_pres buf tol _ P ?_ s hs
      intro s' y x hy hx hP
      rw [mem_range'_iff] at hy
      have hyH : y < buf.H := by
        have : batchY + (min (batchY + 25) buf.H - batchY) ≤ buf.H := by omega
        omega
      exact hstep s' y x hyH hx hP
    · simpa [runBatches, if_neg hb] using hs

theorem traceFinal_pres (buf : PixelBuffer) (tol : ℕ) (P : TraceState → Prop)
    (hstep : ∀ s y x, y < buf.H → x < buf.W → P s → P (stepPixel buf tol y x s))
    (hinit : P initState) : P (traceFinal buf tol) :=
  runBatches_pres buf tol P hstep buf.H 0 initState hinit

theorem traceFinal_inv (buf : PixelBuffer) (tol : ℕ) :
    TraceInv buf (traceFinal buf tol) :=
  traceFinal_pres buf tol (TraceInv buf)
    (fun s y x hy hx h => stepPixel_inv buf tol y x s hx hy h)
    (initState_inv buf)

theorem processRow_visited_sub (buf : PixelBuffer) (tol y : ℕ) (s : TraceState) :
    s.visited ⊆ (processRow buf tol y s).visited := by
  refine foldl_chain (fun a b => a.visited ⊆ b.visited) ?_ _ (List.range buf.W)
    s (le_refl _) ?_
  · intro a b c h1 h2; exact subset_trans h1 h2
  · intro s' x _; exact stepPixel_visited_sub buf tol y x s'

theorem processRows_visited_sub (buf : PixelBuffer) (tol : ℕ) (ys : List ℕ)
    (s : TraceState) : s.visited ⊆ (processRows buf tol ys s).visited := by
  refine foldl_chain (fun a b => a.visited ⊆ b.visited) ?_ _ ys s (le_refl _) ?_
  · intro a b c h1 h2; exact subset_trans h1 h2
  · intro s' y _; exact processRow_visited_sub buf tol y s'

theorem runBatches_visited_sub (buf : PixelBuffer) (tol : ℕ) :
    ∀ (fuel batchY : ℕ) (s : TraceState),
      s.visited ⊆ (runBatches buf tol batchY fuel s).1.visited := by
  intro fuel
  induction fuel with
  | zero => intro batchY s; simp [runBatches]
  | succ n ih =>
    intro batchY s
    by_cases hb : batchY < buf.H
    · simp only [runBatches, if_pos hb]
      exact subset_trans (processRows_visited_sub buf tol _ s) (ih (batchY + 25) _)
    · simp [runBatches, if_neg hb]

theorem processRow_processed_le (buf : PixelBuffer) (tol y : ℕ) (s : TraceState) :
    s.processed ≤ (processRow buf tol y s).processed := by
  refine foldl_chain (fun a b => a.processed ≤ b.processed) ?_ _
    (List.range buf.W) s (le_refl _) ?_
  · intro a b c h1 h2; exact le_trans h1 h2
  · intro s' x _; exact stepPixel_processed_le buf tol y x s'

theorem processRows_processed_le (buf : PixelBuffer) (tol : ℕ) (ys : List ℕ)
    (s : TraceState) : s.processed ≤ (processRows buf tol ys s).processed := by
  refine foldl_chain (fun a b => a.processed ≤ b.processed) ?_ _ ys s
    (le_refl _) ?_
  · intro a b c h1 h2; exact le_trans h1 h2
  · intro s' y _; exact processRow_processed_le buf tol y s'

theorem runBatches_processed_le (buf : PixelBuffer) (tol : ℕ) :
    ∀ (fuel batchY : ℕ) (s : TraceState),
      s.processed ≤ (runBatches buf tol batchY fuel s).1.processed := by
  intro fuel
  induction fuel with
  | zero => intro batchY s; simp [runBatches]
  | succ n ih =>
    intro batchY s
    by_cases hb : batchY < buf.H
    · simp only [runBatches, if_pos hb]
      exact le_trans (processRows_processed_le buf tol _ s) (ih (batchY + 25) _)
    · simp [runBatches, if_neg hb]

/-! ### Completeness: the scan visits every pixel -/

theorem processRow_row_visited (buf : PixelBuffer) (tol y : ℕ) (s : TraceState) :
    ∀ x < buf.W, y * buf.W + x ∈ (processRow buf tol y s).visited := by
  intro x hx
  refine foldl_est (fun x' s' => y * buf.W + x' ∈ s'.visited) _
    (List.range buf.W) s ?_ ?_ x (List.mem_range.2 hx)
  · intro s' b hb
    exact stepPixel_self_visited buf tol y b s' (List.mem_range.1 hb)
  · intro s' b b' _ hmem
    exact stepPixel_visited_sub buf tol y b s' hmem

theorem processRows_rows_visited (buf : PixelBuffer) (tol : ℕ) (ys : List ℕ)
    (s : TraceState) :
    ∀ y ∈ ys, ∀ x < buf.W, y * buf.W + x ∈ (processRows buf tol ys s).visited := by
  intro y hy
  refine foldl_est (fun y' s' => ∀ x < buf.W, y' * buf.W + x ∈ s'.visited) _
    ys s ?_ ?_ y hy
  · intro s' b _
    exact processRow_row_visited buf tol b s'
  · intro s' b b' _ hmem x hx
    exact processRow_visited_sub buf tol b s' (hmem x hx)

theorem runBatches_all_visited (buf : PixelBuffer) (tol : ℕ) :
    ∀ (fuel batchY : ℕ) (s : TraceState), buf.H ≤ batchY + 25 * fuel →
      ∀ y, batchY ≤ y → y < buf.H → ∀ x < buf.W,
        y * buf.W + x ∈ (runBatches buf tol batchY fuel s).1.visited := by
  intro fuel
  induction fuel with
  | zero => intro batchY s hcond y h1 h2 x hx; omega
  | succ n ih =>
    intro batchY s hcond y h1 h2 x hx
    by_cases hb : batchY < buf.H
    · simp only [runBatches, if_pos hb]
      by_cases hy : y < min (batchY + 25) buf.H
      · have hmem : y ∈ List.range' batchY (min (batchY + 25) buf.H - batchY) := by
          rw [mem_range'_iff]; omega
        have h := processRows_rows_visited buf tol
          (List.range' batchY (min (batchY + 25) buf.H - batchY)) s y hmem x hx
        exact runBatches_visited_sub buf tol n (batchY + 25) _ h
      · have h25 : batchY + 25 ≤ y := by omega
        exact ih (batchY + 25) _ (by omega) y h25 h2 x hx
    · omega

theorem traceFinal_visited (buf : PixelBuffer) (tol : ℕ) :
    (traceFinal buf tol).visited = Finset.range (buf.W * buf.H) := by
  ext i
  simp only [Finset.mem_range]
  constructor
  · intro hi
    exact (traceFinal_inv buf tol).bounded i hi
  · intro hi
    have hW : 0 < buf.W := by
      rcases Nat.eq_zero_or_pos buf.W with h | h
      · rw [h, Nat.zero_mul] at hi; omega
      · exact h
    have hx : i % buf.W < buf.W := Nat.mod_lt i hW
    have hy : i / buf.W < buf.H := by
      rw [Nat.div_lt_iff_lt_mul hW, Nat.mul_comm buf.H buf.W]
      exact hi
    have heq : i / buf.W * buf.W + i % buf.W = i := by
      rw [Nat.mul_comm]
      exact Nat.div_add_mod i buf.W
    have := runBatches_all_visited buf tol buf.H 0 initState (by omega)
      (i / buf.W) (Nat.zero_le _) hy (i % buf.W) hx
    rw [heq] at this
    exact this

/-! ### Partition of the grid (coverage invariant) -/

/-- C1: at the end of the grow phase the committed rectangles plus the
individually skipped transparent pixels cover every pixel of the grid
exactly once — the multiset of covered cells is a permutation of the
grid — and the visited mask is exactly the full grid, each entry having
moved from unvisited to visited exactly once. -/
theorem trace_partition (buf : PixelBuffer) (tol : ℕ) :
    (coveredCells buf.W (traceFinal buf tol)).Perm
      (List.range (buf.W * buf.H)) ∧
    (traceFinal buf tol).visited = Finset.range (buf.W * buf.H) := by
  have hinv := traceFinal_inv buf tol
  have hvis := traceFinal_visited buf tol
  refine ⟨?_, hvis⟩
  rw [List.perm_ext_iff_of_nodup hinv.nodup (List.nodup_range _)]
  intro a
  rw [← hinv.mem_iff a, hvis]
  simp

/-! ### Facts about binary64 rounding -/

theorem roundHalfEven_le (x : ℚ) : (roundHalfEven x : ℚ) ≤ x + 1 / 2 := by
  have h1 : (⌊x⌋ : ℚ) ≤ x := Int.floor_le x
  have h2 : x < ⌊x⌋ + 1 := Int.lt_floor_add_one x
  unfold roundHalfEven
  by_cases c1 : x - ⌊x⌋ < 1 / 2
  · rw [if_pos c1]; linarith
  · rw [if_neg c1]
    by_cases c2 : 1 / 2 < x - ⌊x⌋
    · rw [if_pos c2]; push_cast; linarith
    · rw [if_neg c2]
      by_cases c3 : 2 ∣ ⌊x⌋
      · rw [if_pos c3]; linarith
      · rw [if_neg c3]; push_cast; linarith

theorem le_roundHalfEven (x : ℚ) : x - 1 / 2 ≤ (roundHalfEven x : ℚ) := by
  have h1 : (⌊x⌋ : ℚ) ≤ x := Int.floor_le x
  have h2 : x < ⌊x⌋ + 1 := Int.lt_floor_add_one x
  unfold roundHalfEven
  by_cases c1 : x - ⌊x⌋ < 1 / 2
  · rw [if_pos c1]; linarith
  · rw [if_neg c1]
    by_cases c2 : 1 / 2 < x - ⌊x⌋
    · rw [if_pos c2]; push_cast; linarith
    · rw [if_neg c2]
      by_cases c3 : 2 ∣ ⌊x⌋
      · rw [if_pos c3]; linarith
      · rw [if_neg c3]; push_cast; linarith

theorem roundHalfEven_intCast (k : ℤ) : roundHalfEven (k : ℚ) = k := by
  unfold roundHalfEven
  rw [Int.floor_intCast]
  rw [if_pos (by rw [sub_self]; norm_num)]

theorem roundHalfEven_mono {x y : ℚ} (h : x ≤ y) :
    roundHalfEven x ≤ roundHalfEven y := by
  by_contra hc
  push_neg at hc
  have h4 : ((roundHalfEven y : ℤ) : ℚ) + 1 ≤ ((roundHalfEven x : ℤ) : ℚ) := by
    exact_mod_cast hc
  have h2 : (roundHalfEven x : ℚ) ≤ x + 1 / 2 := roundHalfEven_le x
  have h3 : y - 1 / 2 ≤ (roundHalfEven y : ℚ) := le_roundHalfEven y
  have hxy : x = y := by linarith
  subst hxy
  exact absurd hc (lt_irrefl _)

theorem roundHalfEven_nonneg {x : ℚ} (h : 0 ≤ x) : 0 ≤ roundHalfEven x := by
  have h3 := le_roundHalfEven x
  have h5 : ((-1 : ℤ) : ℚ) < (roundHalfEven x : ℚ) := by push_cast; linarith
  have h4 : (-1 : ℤ) < roundHalfEven x := by exact_mod_cast h5
  omega

theorem roundDouble_nonneg (q : ℚ) : 0 ≤ roundDouble q := by
  unfold roundDouble
  split
  · next hq =>
    have hs : (0:ℚ) < 2 ^ (52 - Int.log 2 q) := zpow_pos (by norm_num) _
    have hx : (0:ℚ) ≤ q * 2 ^ (52 - Int.log 2 q) := by positivity
    have h1 := roundHalfEven_nonneg hx
    exact div_nonneg (by exact_mod_cast h1) hs.le
  · exact le_refl 0

theorem roundDouble_le_zpow {q : ℚ} (hq : 0 < q) :
    roundDouble q ≤ 2 ^ (Int.log 2 q + 1) := by
  unfold roundDouble
  rw [if_pos hq]
  have hs : (0:ℚ) < 2 ^ (52 - Int.log 2 q) := zpow_pos (by norm_num) _
  have hlt : q < 2 ^ (Int.log 2 q + 1) := by
    exact_mod_cast Int.lt_zpow_succ_log_self (by norm_num) q
  have hpow : (2:ℚ) ^ (Int.log 2 q + 1) * 2 ^ (52 - Int.log 2 q) = 2 ^ (53:ℤ) := by
    rw [← zpow_add₀ (by norm_num : (2:ℚ) ≠ 0)]
    congr 1
    omega
  have hx : q * 2 ^ (52 - Int.log 2 q) < 2 ^ (53:ℤ) := by
    rw [← hpow]
    exact mul_lt_mul_of_pos_right hlt hs
  have h53 : (2:ℚ) ^ (53:ℤ) = ((2 ^ 53 : ℤ) : ℚ) := by norm_num
  have h5 : (roundHalfEven (q * 2 ^ (52 - Int.log 2 q)) : ℚ) <
      ((2 ^ 53 : ℤ) : ℚ) + 1 := by
    have := roundHalfEven_le (q * 2 ^ (52 - Int.log 2 q))
    rw [h53] at hx
    linarith
  have h6 : roundHalfEven (q * 2 ^ (52 - Int.log 2 q)) ≤ (2 ^ 53 : ℤ) := by
    have h7 : roundHalfEven (q * 2 ^ (52 - Int.log 2 q)) < (2 ^ 53 : ℤ) + 1 := by
      exact_mod_cast h5
    omega
  have hdiv : (2:ℚ) ^ (53:ℤ) / 2 ^ (52 - Int.log 2 q) = 2 ^ (Int.log 2 q + 1) := by
    rw [← zpow_sub₀ (by norm_num : (2:ℚ) ≠ 0)]
    congr 1
    omega
  rw [← hdiv]
  apply div_le_div_of_nonneg_right ?_ hs.le
  rw [h53]
  exact_mod_cast h6

theorem zpow_le_roundDouble {q : ℚ} (hq : 0 < q) :
    2 ^ (Int.log 2 q) ≤ roundDouble q := by
  unfold roundDouble
  rw [if_pos hq]
  have hs : (0:ℚ) < 2 ^ (52 - Int.log 2 q) := zpow_pos (by norm_num) _
  have hle : (2:ℚ) ^ (Int.log 2 q) ≤ q := by
    exact_mod_cast Int.zpow_log_le_self (by norm_num) hq
  have hpow : (2:ℚ) ^ (Int.log 2 q) * 2 ^ (52 - Int.log 2 q) = 2 ^ (52:ℤ) := by
    rw [← zpow_add₀ (by norm_num : (2:ℚ) ≠ 0)]
    congr 1
    omega
  have hx : (2:ℚ) ^ (52:ℤ) ≤ q * 2 ^ (52 - Int.log 2 q) := by
    rw [← hpow]
    exact mul_le_mul_of_nonneg_right hle hs.le
  have h52 : (2:ℚ) ^ (52:ℤ) = ((2 ^ 52 : ℤ) : ℚ) := by norm_num
  have h5 : ((2 ^ 52 : ℤ) : ℚ) - 1 <
      (roundHalfEven (q * 2 ^ (52 - Int.log 2 q)) : ℚ) := by
    have := le_roundHalfEven (q * 2 ^ (52 - Int.log 2 q))
    rw [h52] at hx
    linarith
  have h6 : (2 ^ 52 : ℤ) ≤ roundHalfEven (q * 2 ^ (52 - Int.log 2 q)) := by
    have h7 : (2 ^ 52 : ℤ) - 1 < roundHalfEven (q * 2 ^ (52 - Int.log 2 q)) := by
      exact_mod_cast h5
    omega
  have hdiv : (2:ℚ) ^ (52:ℤ) / 2 ^ (52 - Int.log 2 q) = 2 ^ (Int.log 2 q) := by
    rw [← zpow_sub₀ (by norm_num : (2:ℚ) ≠ 0)]
    congr 1
    omega
  rw [← hdiv]
  apply div_le_div_of_nonneg_right ?_ hs.le
  rw [h52]
  exact_mod_cast h6

theorem roundDouble_mono {q q' : ℚ} (h : q ≤ q') :
    roundDouble q ≤ roundDouble q' := by
  rcases le_or_lt q 0 with hq | hq
  · have h0 : roundDouble q = 0 := by
      unfold roundDouble
      rw [if_neg (not_lt.2 hq)]
    rw [h0]
    exact roundDouble_nonneg q'
  · have hq' : 0 < q' := lt_of_lt_of_le hq h
    have he : Int.log 2 q ≤ Int.log 2 q' := Int.log_mono_right hq h
    rcases eq_or_lt_of_le he with heq | hlt
    · unfold roundDouble
      rw [if_pos hq, if_pos hq', ← heq]
      have hs : (0:ℚ) < 2 ^ (52 - Int.log 2 q) := zpow_pos (by norm_num) _
      have hxy : q * 2 ^ (52 - Int.log 2 q) ≤ q' * 2 ^ (52 - Int.log 2 q) :=
        mul_le_mul_of_nonneg_right h hs.le
      have hr := roundHalfEven_mono hxy
      exact div_le_div_of_nonneg_right (by exact_mod_cast hr) hs.le
    · calc roundDouble q ≤ 2 ^ (Int.log 2 q + 1) := roundDouble_le_zpow hq
        _ ≤ 2 ^ (Int.log 2 q') := zpow_le_zpow_right₀ (by norm_num) (by omega)
        _ ≤ roundDouble q' := zpow_le_roundDouble hq'

theorem roundDouble_eq_self {q : ℚ} (hq : 0 < q) (k : ℤ)
    (hk : q * 2 ^ (52 - Int.log 2 q) = (k : ℚ)) : roundDouble q = q := by
  unfold roundDouble
  rw [if_pos hq, hk, roundHalfEven_intCast, ← hk]
  exact mul_div_cancel_right₀ q (ne_of_gt (zpow_pos (by norm_num) _))

theorem roundDouble_natCast (n : ℕ) (hn : n ≤ 2 ^ 53) :
    roundDouble (n : ℚ) = n := by
  rcases Nat.eq_zero_or_pos n with rfl | hpos
  · simp [roundDouble]
  · have hq : (0:ℚ) < n := by exact_mod_cast hpos
    have hle : (2:ℚ) ^ (Int.log 2 (n:ℚ)) ≤ n := by
      exact_mod_cast Int.zpow_log_le_self (by norm_num) hq
    have h53 : Int.log 2 (n:ℚ) ≤ 53 := by
      by_contra hgt
      push_neg at hgt
      have h1 : (2:ℚ) ^ (54:ℤ) ≤ 2 ^ (Int.log 2 (n:ℚ)) :=
        zpow_le_zpow_right₀ (by norm_num) (by omega)
      have h2 : (n:ℚ) ≤ ((2 ^ 53 : ℕ) : ℚ) := by exact_mod_cast hn
      have h3 : (2:ℚ) ^ (54:ℤ) = ((2 ^ 54 : ℕ) : ℚ) := by norm_num
      rw [h3] at h1
      have h4 : ((2 ^ 54 : ℕ) : ℚ) ≤ ((2 ^ 53 : ℕ) : ℚ) := by linarith
      have h5 : (2 ^ 54 : ℕ) ≤ 2 ^ 53 := by exact_mod_cast h4
      norm_num at h5
    rcases lt_or_eq_of_le h53 with h52 | h53eq
    · have hnn : (0:ℤ) ≤ 52 - Int.log 2 (n:ℚ) := by omega
      refine roundDouble_eq_self hq
        ((n : ℤ) * 2 ^ (52 - Int.log 2 (n:ℚ)).toNat) ?_
      rw [show ((2:ℚ) ^ (52 - Int.log 2 (n:ℚ))) =
          2 ^ (52 - Int.log 2 (n:ℚ)).toNat from by
        rw [← zpow_natCast]
        rw [Int.toNat_of_nonneg hnn]]
      push_cast
      ring
    · have h1 : (2:ℚ) ^ (53:ℤ) ≤ (n:ℚ) := by
        rw [← h53eq]
        exact hle
      have h2 : ((2 ^ 53 : ℕ) : ℚ) ≤ (n:ℚ) := by
        have h3 : (2:ℚ) ^ (53:ℤ) = ((2 ^ 53 : ℕ) : ℚ) := by norm_num
        rw [← h3]
        exact h1
      have hn' : n = 2 ^ 53 := le_antisymm hn (by exact_mod_cast h2)
      subst hn'
      refine roundDouble_eq_self hq (2 ^ 52) ?_
      rw [h53eq]
      have h4 : ((2 ^ 53 : ℕ) : ℚ) = (2:ℚ) ^ (53:ℤ) := by norm_num
      have h5 : ((2 ^ 52 : ℤ) : ℚ) = (2:ℚ) ^ (52:ℤ) := by norm_num
      rw [h4, h5, ← zpow_add₀ (by norm_num : (2:ℚ) ≠ 0)]
      norm_num

theorem roundHalfEven_eq_floor {x : ℚ} (h : x - ⌊x⌋ < 1 / 2) :
    roundHalfEven x = ⌊x⌋ := by
  unfold roundHalfEven
  rw [if_pos h]

theorem roundDouble_eval_down (q : ℚ) (e m : ℤ) (hq : 0 < q)
    (h1 : (2:ℚ) ^ e ≤ q) (h2 : q < 2 ^ (e + 1))
    (hf : ⌊q * 2 ^ (52 - e)⌋ = m) (hlt : q * 2 ^ (52 - e) - (m : ℚ) < 1 / 2) :
    roundDouble q = (m : ℚ) / 2 ^ (52 - e) := by
  have hlog : Int.log 2 q = e := by
    have ha : e ≤ Int.log 2 q :=
      (Int.zpow_le_iff_le_log (by norm_num) hq).1 (by exact_mod_cast h1)
    have hb : Int.log 2 q < e + 1 :=
      (Int.lt_zpow_iff_log_lt (by norm_num) hq).1 (by exact_mod_cast h2)
    omega
  unfold roundDouble
  rw [if_pos hq, hlog]
  rw [roundHalfEven_eq_floor (by rw [hf]; exact hlt), hf]

/-! ### Progress reporting -/

theorem progressValue_mono {p p' t : ℕ} (h : p ≤ p') :
    progressValue p t ≤ progressValue p' t := by
  unfold progressValue jsMul jsDiv
  have h1 : (p:ℚ) / t ≤ (p':ℚ) / t := by
    apply div_le_div_of_nonneg_right ?_ (by positivity)
    exact_mod_cast h
  have h2 := roundDouble_mono h1
  have h3 : roundDouble ((p:ℚ) / t) * 100 ≤ roundDouble ((p':ℚ) / t) * 100 :=
    mul_le_mul_of_nonneg_right h2 (by norm_num)
  have h4 := roundDouble_mono h3
  exact Int.toNat_le_toNat (Int.floor_le_floor h4)

theorem progressValue_self {t : ℕ} (ht : 0 < t) : progressValue t t = 100 := by
  unfold progressValue jsMul jsDiv
  have h1 : (t:ℚ) / (t:ℚ) = 1 := div_self (by exact_mod_cast ht.ne')
  rw [h1]
  have h2 : roundDouble 1 = 1 := by
    have h := roundDouble_natCast 1 (by norm_num)
    simpa using h
  rw [h2, one_mul]
  have h3 : roundDouble 100 = 100 := by
    have h := roundDouble_natCast 100 (by norm_num)
    simpa using h
  rw [h3]
  rw [show ((100:ℚ)) = ((100:ℤ):ℚ) from by norm_num, Int.floor_intCast]
  rfl

theorem runBatches_done (buf : PixelBuffer) (tol : ℕ) (fuel batchY : ℕ)
    (s : TraceState) (h : buf.H ≤ batchY) :
    runBatches buf tol batchY fuel s = (s, []) := by
  cases fuel with
  | zero => rfl
  | succ n => simp [runBatches, Nat.not_lt.2 h]

theorem runBatches_prog_ge (buf : PixelBuffer) (tol : ℕ) :
    ∀ (fuel batchY : ℕ) (s : TraceState) (q : ℕ),
      q ∈ (runBatches buf tol batchY fuel s).2 →
      progressValue s.processed (buf.W * buf.H) ≤ q := by
  intro fuel
  induction fuel with
  | zero => intro batchY s q hq; simp [runBatches] at hq
  | succ n ih =>
    intro batchY s q hq
    by_cases hb : batchY < buf.H
    · simp only [runBatches, if_pos hb, List.mem_cons] at hq
      rcases hq with rfl | hq
      · exact progressValue_mono (processRows_processed_le buf tol _ s)
      · refine le_trans ?_ (ih (batchY + 25) _ q hq)
        exact progressValue_mono (processRows_processed_le buf tol _ s)
    · simp [runBatches, if_neg hb] at hq

theorem runBatches_prog_chain (buf : PixelBuffer) (tol : ℕ) :
    ∀ (fuel batchY : ℕ) (s : TraceState),
      List.Chain' (· ≤ ·) (runBatches buf tol batchY fuel s).2 := by
  intro fuel
  induction fuel with
  | zero => intro batchY s; simp [runBatches]
  | succ n ih =>
    intro batchY s
    by_cases hb : batchY < buf.H
    · simp only [runBatches, if_pos hb]
      rw [List.chain'_cons']
      refine ⟨?_, ih (batchY + 25) _⟩
      intro b hb'
      have hmem : b ∈ (runBatches buf tol (batchY + 25) n
          (processRows buf tol
            (List.range' batchY (min (batchY + 25) buf.H - batchY)) s)).2 :=
        List.mem_of_mem_head? hb'
      exact runBatches_prog_ge buf tol n (batchY + 25) _ b hmem
    · simp [runBatches, if_neg hb]

theorem list_getLast?_cons {α : Type _} (a : α) (l : List α) (h : l ≠ []) :
    (a :: l).getLast? = l.getLast? := by
  cases l with
  | nil => exact absurd rfl h
  | cons b t => exact List.getLast?_cons_cons

theorem runBatches_prog_last (buf : PixelBuffer) (tol : ℕ) :
    ∀ (fuel batchY : ℕ) (s : TraceState), batchY < buf.H →
      buf.H ≤ batchY + 25 * fuel →
      (runBatches buf tol batchY fuel s).2.getLast? =
        some (progressValue (runBatches buf tol batchY fuel s).1.processed
          (buf.W * buf.H)) := by
  intro fuel
  induction fuel with
  | zero => intro batchY s h1 h2; omega
  | succ n ih =>
    intro batchY s h1 h2
    simp only [runBatches, if_pos h1]
    by_cases h25 : batchY + 25 < buf.H
    · have hih := ih (batchY + 25)
        (processRows buf tol
          (List.range' batchY (min (batchY + 25) buf.H - batchY)) s)
        h25 (by omega)
      have hne : (runBatches buf tol (batchY + 25) n
          (processRows buf tol
            (List.range' batchY (min (batchY + 25) buf.H - batchY)) s)).2 ≠ [] := by
        intro hnil
        rw [hnil] at hih
        simp at hih
      rw [list_getLast?_cons _ _ hne]
      exact hih
    · rw [runBatches_done buf tol n (batchY + 25) _ (by omega)]
      simp [List.getLast?]

theorem runBatches_len (buf : PixelBuffer) (tol : ℕ) :
    ∀ (fuel batchY : ℕ) (s : TraceState), buf.H ≤ batchY + 25 * fuel →
      (runBatches buf tol batchY fuel s).2.length =
        (buf.H - batchY + 24) / 25 := by
  intro fuel
  induction fuel with
  | zero =>
    intro batchY s h
    simp only [runBatches, List.length_nil]
    omega
  | succ n ih =>
    intro batchY s h
    by_cases hb : batchY < buf.H
    · simp only [runBatches, if_pos hb, List.length_cons]
      rw [ih (batchY + 25) _ (by omega)]
      omega
    · simp only [runBatches, if_neg hb, List.length_nil]
      omega

/-- C5 (amended): during one trace the progress callback is invoked
exactly once per 25-row batch; each reported value is the floor of the
binary64 computation `(processed / total) * 100` (the definition of
`progressValue`), which can land one below the exact
`floor(processed * 100 / total)` of the original claim; the values are
non-decreasing and the last one is 100. -/
theorem trace_progress (buf : PixelBuffer) (tol : ℕ) (hW : 0 < buf.W)
    (hH : 0 < buf.H) :
    (traceProg buf tol).length = (buf.H + 24) / 25 ∧
    List.Chain' (· ≤ ·) (traceProg buf tol) ∧
    (traceProg buf tol).getLast? = some 100 := by
  have htot : 0 < buf.W * buf.H := Nat.mul_pos hW hH
  refine ⟨?_, ?_, ?_⟩
  · have := runBatches_len buf tol buf.H 0 initState (by omega)
    simpa using this
  · exact runBatches_prog_chain buf tol buf.H 0 initState
  · have hlast := runBatches_prog_last buf tol buf.H 0 initState hH (by omega)
    have hproc : (runBatches buf tol 0 buf.H initState).1.processed =
        buf.W * buf.H := by
      have h1 := (traceFinal_inv buf tol).processed_eq
      have h2 := traceFinal_visited buf tol
      rw [traceFinal, traceRun] at h1 h2
      rw [h1, h2, Finset.card_range]
    rw [traceProg, traceRun, hlast, hproc]
    rw [progressValue_self htot]

/-! ### The batch loop processes exactly the rows 0..H-1 in order -/

theorem processRows_append (buf : PixelBuffer) (tol : ℕ) (l1 l2 : List ℕ)
    (s : TraceState) :
    processRows buf tol (l1 ++ l2) s =
      processRows buf tol l2 (processRows buf tol l1 s) := by
  simp [processRows, List.foldl_append]

theorem runBatches_state (buf : PixelBuffer) (tol : ℕ) :
    ∀ (fuel batchY : ℕ) (s : TraceState), buf.H ≤ batchY + 25 * fuel →
      (runBatches buf tol batchY fuel s).1 =
        processRows buf tol (List.range' batchY (buf.H - batchY)) s := by
  intro fuel
  induction fuel with
  | zero =>
    intro batchY s h
    have h0 : buf.H - batchY = 0 := by omega
    simp [runBatches, h0, processRows]
  | succ n ih =>
    intro batchY s h
    by_cases hb : batchY < buf.H
    · simp only [runBatches, if_pos hb]
      by_cases h25 : batchY + 25 ≤ buf.H
      · have hmin : min (batchY + 25) buf.H - batchY = 25 := by omega
        rw [hmin, ih (batchY + 25) _ (by omega)]
        have happ := List.range'_append batchY 25 (buf.H - (batchY + 25)) 1
        simp only [Nat.one_mul] at happ
        have hcount : buf.H - (batchY + 25) + 25 = buf.H - batchY := by omega
        rw [hcount] at happ
        rw [← happ, processRows_append]
      · have hmin : min (batchY + 25) buf.H - batchY = buf.H - batchY := by omega
        rw [hmin, runBatches_done buf tol n (batchY + 25) _ (by omega)]
    · simp only [runBatches, if_neg hb]
      have h0 : buf.H - batchY = 0 := by omega
      simp [h0, processRows]

theorem traceFinal_eq_rows (buf : PixelBuffer) (tol : ℕ) :
    traceFinal buf tol = processRows buf tol (List.range buf.H) initState := by
  rw [traceFinal, traceRun, runBatches_state buf tol buf.H 0 initState (by omega)]
  rw [Nat.sub_zero, List.range_eq_range']

/-! ### Steps on an already fully visited grid do nothing -/

theorem stepPixel_id_of_full (buf : PixelBuffer) (tol y x : ℕ) (s : TraceState)
    (hfull : ∀ i < buf.W * buf.H, i ∈ s.visited) (hx : x < buf.W)
    (hy : y < buf.H) : stepPixel buf tol y x s = s :=
  stepPixel_of_visited buf tol y x s (hfull _ (grid_lt hy hx))

theorem processRow_id_of_full (buf : PixelBuffer) (tol y : ℕ) (s : TraceState)
    (hfull : ∀ i < buf.W * buf.H, i ∈ s.visited) (hy : y < buf.H) :
    processRow buf tol y s = s := by
  rw [processRow]
  refine foldl_fixed _ (List.range buf.W) s ?_
  intro x hx
  exact stepPixel_id_of_full buf tol y x s hfull (List.mem_range.1 hx) hy

theorem processRows_id_of_full (buf : PixelBuffer) (tol : ℕ) (ys : List ℕ)
    (s : TraceState) (hfull : ∀ i < buf.W * buf.H, i ∈ s.visited)
    (hys : ∀ y ∈ ys, y < buf.H) : processRows buf tol ys s = s := by
  rw [processRows]
  refine foldl_fixed _ ys s ?_
  intro y hy
  exact processRow_id_of_full buf tol y s hfull (hys y hy)

/-! ### Tracing a uniform fully opaque buffer -/

theorem grownRect_uniform (buf : PixelBuffer) (tol c : ℕ)
    (hdata : ∀ i, buf.data i = c) (hH : 0 < buf.H) :
    grownRect buf tol ∅ 0 0 = (buf.W, buf.H) := by
  have hrow : ∀ rowBase rectW,
      rowOk buf.data tol ∅ (buf.data (0 * buf.W + 0)) rowBase rectW = true := by
    intro rowBase rectW
    rw [rowOk_iff]
    intro dw _
    refine ⟨by simp, ?_⟩
    rw [hdata (0 * buf.W + 0), hdata (rowBase + dw)]
    exact isColorSimilar_self c tol
  have hcondW : ∀ j, 0 ≤ j → j < 0 + (buf.W - 0) →
      (0 * buf.W + 0) + j ∉ (∅ : Finset ℕ) ∧
      isColorSimilar (buf.data (0 * buf.W + 0)) (buf.data ((0 * buf.W + 0) + j))
        tol = true := by
    intro j _ _
    refine ⟨by simp, ?_⟩
    rw [hdata (0 * buf.W + 0), hdata ((0 * buf.W + 0) + j)]
    exact isColorSimilar_self c tol
  have hw := growWAux_all buf.data tol ∅ (buf.data (0 * buf.W + 0))
    (0 * buf.W + 0) (buf.W - 0) 0 hcondW
  have hhgen : ∀ rectW, growHAux buf.data tol ∅ (buf.data (0 * buf.W + 0))
      buf.W 0 0 rectW 1 (buf.H - (0 + 1)) = 1 + (buf.H - (0 + 1)) := by
    intro rectW
    exact growHAux_all buf.data tol ∅ (buf.data (0 * buf.W + 0)) buf.W 0 0
      rectW (buf.H - (0 + 1)) 1 (fun j _ _ => hrow _ rectW)
  simp only [grownRect]
  rw [Prod.mk.injEq]
  constructor
  · rw [hw]; omega
  · rw [hhgen]; omega

theorem stepPixel_uniform_first (buf : PixelBuffer) (tol c : ℕ)
    (hdata : ∀ i, buf.data i = c) (hH : 0 < buf.H) (ha : alphaC c = 255) :
    stepPixel buf tol 0 0 initState =
      { visited := (commitCells (rectCells buf.W 0 0 buf.W buf.H) ∅ 0).1
        processed := (commitCells (rectCells buf.W 0 0 buf.W buf.H) ∅ 0).2
        rects := [⟨0, 0, buf.W, buf.H, c⟩]
        skipped := []
        colorPaths := [(c, [rectPath 0 0 buf.W buf.H])] } := by
  have hv : (0 : ℕ) * buf.W + 0 ∉ initState.visited := by simp [initState]
  have ha' : ¬ alphaC (buf.data (0 * buf.W + 0)) < 2 := by
    rw [hdata, ha]; omega
  rw [stepPixel_of_grow buf tol 0 0 initState hv ha']
  have hgr : grownRect buf tol initState.visited 0 0 = (buf.W, buf.H) := by
    show grownRect buf tol ∅ 0 0 = (buf.W, buf.H)
    exact grownRect_uniform buf tol c hdata hH
  rw [hgr]
  simp [initState, pushPath, hdata]

theorem traceFinal_uniform (buf : PixelBuffer) (tol c : ℕ)
    (hdata : ∀ i, buf.data i = c) (hW : 0 < buf.W) (hH : 0 < buf.H)
    (ha : alphaC c = 255) :
    traceFinal buf tol = stepPixel buf tol 0 0 initState := by
  have hfull : ∀ i < buf.W * buf.H, i ∈ (stepPixel buf tol 0 0 initState).visited := by
    intro i hi
    rw [stepPixel_uniform_first buf tol c hdata hH ha]
    simp only
    rw [commitCells_mem]
    right
    rw [mem_rectCells]
    have hx : i % buf.W < buf.W := Nat.mod_lt i hW
    have hy : i / buf.W < buf.H := by
      rw [Nat.div_lt_iff_lt_mul hW, Nat.mul_comm buf.H buf.W]
      exact hi
    refine ⟨i / buf.W, hy, i % buf.W, hx, ?_⟩
    simp only [Nat.zero_add]
    rw [Nat.mul_comm, Nat.div_add_mod]
  rw [traceFinal_eq_rows]
  have hHs : buf.H = (buf.H - 1) + 1 := by omega
  have hHsplit : List.range buf.H = 0 :: List.range' 1 (buf.H - 1) := by
    rw [List.range_eq_range', hHs]
    rfl
  rw [hHsplit]
  have hrow0 : processRow buf tol 0 initState = stepPixel buf tol 0 0 initState := by
    rw [processRow]
    have hWs : buf.W = (buf.W - 1) + 1 := by omega
    have hWsplit : List.range buf.W = 0 :: List.range' 1 (buf.W - 1) := by
      rw [List.range_eq_range', hWs]
      rfl
    rw [hWsplit, List.foldl_cons]
    refine foldl_fixed _ (List.range' 1 (buf.W - 1)) _ ?_
    intro x hx
    rw [mem_range'_iff] at hx
    exact stepPixel_id_of_full buf tol 0 x _ hfull (by omega) hH
  show processRows buf tol (0 :: List.range' 1 (buf.H - 1)) initState = _
  rw [processRows, List.foldl_cons]
  show processRows buf tol (List.range' 1 (buf.H - 1))
    (processRow buf tol 0 initState) = _
  rw [hrow0]
  refine processRows_id_of_full buf tol _ _ hfull ?_
  intro y hy
  rw [mem_range'_iff] at hy
  omega

/-- C3: tracing a fully opaque single-color buffer commits exactly one
rectangle, of the full grid size at the origin, accumulates exactly one
path group under that color holding the single bled rectangle command,
and serializes to a document with exactly one shape element whose path
data is the bled command over the full grid. -/
theorem trace_uniform (buf : PixelBuffer) (c tol : ℕ)
    (hdata : ∀ i, buf.data i = c) (hW : 0 < buf.W) (hH : 0 < buf.H)
    (ha : alphaC c = 255) :
    (traceFinal buf tol).rects = [⟨0, 0, buf.W, buf.H, c⟩] ∧
    (traceFinal buf tol).colorPaths = [(c, [rectPath 0 0 buf.W buf.H])] ∧
    traceDocument buf tol =
      svgDocument buf.W buf.H [pathElement c [rectPath 0 0 buf.W buf.H]] ∧
    rectPath 0 0 buf.W buf.H =
      "M-0.2,-0.2h" ++ fmtTenths (10 * (buf.W : ℤ) + 4) ++ "v" ++
        fmtTenths (10 * (buf.H : ℤ) + 4) ++ "h-" ++
        fmtTenths (10 * (buf.W : ℤ) + 4) ++ "z" := by
  have hfin := traceFinal_uniform buf tol c hdata hW hH ha
  have hstep := stepPixel_uniform_first buf tol c hdata hH ha
  refine ⟨?_, ?_, ?_, ?_⟩
  · rw [hfin, hstep]
  · rw [hfin, hstep]
  · rw [traceDocument, hfin, hstep]
    simp [buildShapes]
  · rw [rectPath]
    have h02 : fmtTenths (10 * ((0 : ℕ) : ℤ) - 2) = "-0.2" := by decide
    rw [h02]
    have hpre : "M" ++ "-0.2" ++ "," ++ "-0.2" ++ "h" = "M-0.2,-0.2h" := by decide
    rw [hpre]

/-! ### Path-group accumulation: first-occurrence order and grouping -/

theorem mem_dedupFirst (a : ℕ) (l : List ℕ) : a ∈ dedupFirst l ↔ a ∈ l := by
  induction l using dedupFirst.induct with
  | case1 => simp [dedupFirst]
  | case2 b t ih =>
    rw [dedupFirst]
    simp only [List.mem_cons]
    rw [ih]
    simp only [List.mem_filter, decide_eq_true_eq]
    by_cases hab : a = b
    · simp [hab]
    · simp [hab]

theorem nodup_dedupFirst (l : List ℕ) : (dedupFirst l).Nodup := by
  induction l using dedupFirst.induct with
  | case1 => simp [dedupFirst]
  | case2 b t ih =>
    rw [dedupFirst, List.nodup_cons]
    refine ⟨?_, ih⟩
    intro hb
    rw [mem_dedupFirst] at hb
    simp at hb

theorem dedupFirst_append (l : List ℕ) (a : ℕ) :
    dedupFirst (l ++ [a]) =
      if a ∈ l then dedupFirst l else dedupFirst l ++ [a] := by
  induction l using dedupFirst.induct with
  | case1 => simp [dedupFirst]
  | case2 b t ih =>
    rw [List.cons_append, dedupFirst]
    rw [List.filter_append]
    by_cases hab : a = b
    · subst hab
      have hfa : [a].filter (fun x => x ≠ a) = [] := by simp
      rw [hfa, List.append_nil]
      rw [if_pos (by simp)]
      rw [dedupFirst]
    · have hfa : [a].filter (fun x => x ≠ b) = [a] := by simp [hab]
      rw [hfa, ih]
      have hmem : a ∈ t.filter (fun x => x ≠ b) ↔ a ∈ t := by
        simp [hab]
      by_cases hat : a ∈ t
      · rw [if_pos (hmem.2 hat), if_pos (by simp [hat])]
        rw [dedupFirst]
      · rw [if_neg (fun h => hat (hmem.1 h)), if_neg (by simp [hat, hab])]
        rw [dedupFirst, List.cons_append]

theorem pushPath_keys (cp : List (ℕ × List String)) (c : ℕ) (d : String) :
    (pushPath cp c d).map Prod.fst =
      if c ∈ cp.map Prod.fst then cp.map Prod.fst
      else cp.map Prod.fst ++ [c] := by
  induction cp with
  | nil => simp [pushPath]
  | cons q rest ih =>
    obtain ⟨c', l⟩ := q
    by_cases hc : c' = c
    · subst hc
      simp [pushPath]
    · simp only [pushPath, if_neg hc, List.map_cons]
      rw [ih]
      by_cases hm : c ∈ rest.map Prod.fst
      · rw [if_pos hm, if_pos (by simp [hm])]
      · rw [if_neg hm, if_neg ?_, List.cons_append]
        simp only [List.mem_cons]
        rintro (h | h)
        · exact hc h.symm
        · exact hm h

theorem pushPath_values (c₀ : ℕ) (d : String) (F : ℕ → List String) :
    ∀ (cp : List (ℕ × List String)), (cp.map Prod.fst).Nodup →
      (∀ p ∈ cp, p.2 = F p.1) → (c₀ ∉ cp.map Prod.fst → F c₀ = []) →
      ∀ p ∈ pushPath cp c₀ d,
        p.2 = F p.1 ++ (if p.1 = c₀ then [d] else []) := by
  intro cp
  induction cp with
  | nil =>
    intro _ _ h₀ p hp
    simp only [pushPath, List.mem_singleton] at hp
    subst hp
    simp [h₀ (by simp)]
  | cons q rest ih =>
    obtain ⟨c', l⟩ := q
    intro hnd hcp h₀ p hp
    by_cases hc : c' = c₀
    · subst hc
      simp only [pushPath, if_pos rfl] at hp
      rcases List.mem_cons.1 hp with rfl | hp'
      · have hl : l = F c' := by simpa using hcp (c', l) (by simp)
        simp [hl]
      · have hp1 : p.1 ≠ c' := by
          intro he
          have hmem : c' ∈ rest.map Prod.fst := by
            rw [← he]
            exact List.mem_map_of_mem Prod.fst hp'
          exact (List.nodup_cons.1 (by simpa using hnd)).1 hmem
        rw [if_neg hp1, List.append_nil]
        exact hcp p (by simp [hp'])
    · simp only [pushPath, if_neg hc] at hp
      rcases List.mem_cons.1 hp with rfl | hp'
      · have hp1 : (c', l).1 ≠ c₀ := hc
        rw [if_neg hp1, List.append_nil]
        exact hcp (c', l) (by simp)
      · refine ih (List.nodup_cons.1 (by simpa using hnd)).2
          (fun p' hp'' => hcp p' (by simp [hp''])) ?_ p hp'
        intro hc₀
        refine h₀ ?_
        simp only [List.map_cons, List.mem_cons]
        rintro (h | h)
        · exact hc h.symm
        · exact hc₀ h

theorem buildPaths_keys (rects : List RegionRect) :
    (buildPaths rects).map Prod.fst =
      dedupFirst (rects.map RegionRect.color) := by
  induction rects using List.reverseRecOn with
  | nil => simp [buildPaths, dedupFirst]
  | append_singleton rs r ih =>
    rw [buildPaths_append_single, pushPath_keys, ih, List.map_append,
      List.map_singleton, dedupFirst_append]
    by_cases hm : r.color ∈ rs.map RegionRect.color
    · rw [if_pos ((mem_dedupFirst _ _).2 hm), if_pos hm]
    · rw [if_neg (fun h => hm ((mem_dedupFirst _ _).1 h)), if_neg hm]

section

attribute [local irreducible] rectPath

theorem buildPaths_values (rects : List RegionRect) :
    ∀ p ∈ buildPaths rects,
      p.2 = (rects.filter fun rr => rr.color = p.1).map
        fun rr => rectPath rr.x rr.y rr.w rr.h := by
  induction rects using List.reverseRecOn with
  | nil => simp [buildPaths]
  | append_singleton rs r ih =>
    intro p hp
    rw [buildPaths_append_single] at hp
    have hnd : ((buildPaths rs).map Prod.fst).Nodup := by
      rw [buildPaths_keys]; exact nodup_dedupFirst _
    have h₀ : r.color ∉ (buildPaths rs).map Prod.fst →
        (fun c => (rs.filter fun rr => rr.color = c).map
          fun rr => rectPath rr.x rr.y rr.w rr.h) r.color = [] := by
      intro hnm
      rw [buildPaths_keys, mem_dedupFirst] at hnm
      have hfil : rs.filter (fun rr => rr.color = r.color) = [] := by
        rw [List.filter_eq_nil_iff]
        intro rr hrr he
        simp only [decide_eq_true_eq] at he
        exact hnm (he ▸ List.mem_map_of_mem RegionRect.color hrr)
      simp [hfil]
    have hval : p.2 = ((rs.filter fun rr => rr.color = p.1).map
        fun rr => rectPath rr.x rr.y rr.w rr.h) ++
        (if p.1 = r.color then [rectPath r.x r.y r.w r.h] else []) :=
      pushPath_values r.color (rectPath r.x r.y r.w r.h)
        (fun c => (rs.filter fun rr => rr.color = c).map
          fun rr => rectPath rr.x rr.y rr.w rr.h)
        (buildPaths rs) hnd ih h₀ p hp
    rw [hval, List.filter_append, List.map_append]
    congr 1
    by_cases h : p.1 = r.color
    · rw [if_pos h]
      have hfil : [r].filter (fun rr => rr.color = p.1) = [r] := by simp [h.symm]
      rw [hfil]
      simp
    · rw [if_neg h]
      have hfil : [r].filter (fun rr => rr.color = p.1) = [] := by
        simp [Ne.symm h]
      rw [hfil]
      simp

end

/-- C6: the serialized document is the root sized to the target with one
shape element per accumulated color group; the group keys are pairwise
distinct and follow the first-occurrence order of the committed
rectangles' anchor colors, and each group's path data is the list of bled
rectangle commands of that color's rectangles in commit order. -/
theorem trace_serializer (buf : PixelBuffer) (tol : ℕ) :
    ((traceFinal buf tol).colorPaths.map Prod.fst).Nodup ∧
    (traceFinal buf tol).colorPaths.map Prod.fst =
      dedupFirst ((traceFinal buf tol).rects.map RegionRect.color) ∧
    (∀ p ∈ (traceFinal buf tol).colorPaths,
      p.2 = ((traceFinal buf tol).rects.filter fun rr => rr.color = p.1).map
        fun rr => rectPath rr.x rr.y rr.w rr.h) ∧
    traceDocument buf tol = svgDocument buf.W buf.H
      ((traceFinal buf tol).colorPaths.map fun p => pathElement p.1 p.2) := by
  have hpaths := (traceFinal_inv buf tol).paths_eq
  have hk := buildPaths_keys (traceFinal buf tol).rects
  have hv := buildPaths_values (traceFinal buf tol).rects
  refine ⟨?_, ?_, ?_, rfl⟩
  · rw [hpaths, hk]; exact nodup_dedupFirst _
  · rw [hpaths, hk]
  · rw [hpaths]; exact hv

/-! ### The color comparator, characterized -/

/-- C2: the comparator returns true exactly on equal packed values, on two
near-transparent pixels (both alphas below 2), or when the alpha channels
and all three color channels each differ by at most the tolerance; it is
a total function of the packed values. -/
theorem isColorSimilar_spec (c1 c2 tol : ℕ) :
    isColorSimilar c1 c2 tol = true ↔
      (c1 = c2 ∨ (alphaC c1 < 2 ∧ alphaC c2 < 2) ∨
        (Nat.dist (alphaC c1) (alphaC c2) ≤ tol ∧
         Nat.dist (redC c1) (redC c2) ≤ tol ∧
         Nat.dist (greenC c1) (greenC c2) ≤ tol ∧
         Nat.dist (blueC c1) (blueC c2) ≤ tol)) := by
  unfold isColorSimilar
  by_cases he : c1 = c2
  · simp [he]
  · simp only [if_neg he]
    by_cases ht : alphaC c1 < 2 ∧ alphaC c2 < 2
    · simp [ht]
    · simp only [if_neg ht]
      by_cases hd : tol < Nat.dist (alphaC c1) (alphaC c2)
      · simp only [if_pos hd]
        constructor
        · intro h; simp at h
        · rintro (h | h | h)
          · exact absurd h he
          · exact absurd h ht
          · exact absurd h.1 (by omega)
      · simp only [if_neg hd, Bool.and_eq_true, decide_eq_true_eq]
        constructor
        · rintro ⟨⟨h1, h2⟩, h3⟩
          exact Or.inr (Or.inr ⟨by omega, h1, h2, h3⟩)
        · rintro (h | h | h)
          · exact absurd h he
          · exact absurd h ht
          · exact ⟨⟨h.2.1, h.2.2.1⟩, h.2.2.2⟩

/-! ### Tolerance and the grown rectangle -/

/-- C4 counterexample: on `bufTolArea` the rectangle grown from anchor
(0,0) has area 4 at tolerance 0 but only area 3 at tolerance 5 — raising
the tolerance widens the first row, and the wider row then blocks all
vertical growth, so the area decreases. The first committed rectangle of
the actual traces shows the same shapes. -/
theorem grow_area_tol_cex :
    (0 : ℕ) ≤ 5 ∧
    (grownRect bufTolArea 0 ∅ 0 0).1 * (grownRect bufTolArea 0 ∅ 0 0).2 = 4 ∧
    (grownRect bufTolArea 5 ∅ 0 0).1 * (grownRect bufTolArea 5 ∅ 0 0).2 = 3 ∧
    (traceFinal bufTolArea 0).rects.head? = some ⟨0, 0, 2, 2, 4278190080⟩ ∧
    (traceFinal bufTolArea 5).rects.head? = some ⟨0, 0, 3, 1, 4278190080⟩ := by
  decide

/-- C4 (amended): for a fixed buffer and anchor, increasing the tolerance
can never decrease the grown rectangle's width (the horizontal greedy
loop's predicate is monotone in the tolerance); the area itself is not
monotone, as `grow_area_tol_cex` shows. -/
theorem growW_tol_mono (buf : PixelBuffer) (v : Finset ℕ) (x y tol tol' : ℕ)
    (h : tol ≤ tol') :
    (grownRect buf tol v x y).1 ≤ (grownRect buf tol' v x y).1 :=
  growWAux_mono buf.data tol tol' v (buf.data (y * buf.W + x))
    (y * buf.W + x) h (buf.W - x) 0

theorem growW_tol_mono_witness :
    (0 : ℕ) ≤ 5 ∧
    (grownRect bufTolArea 0 ∅ 0 0).1 ≤ (grownRect bufTolArea 5 ∅ 0 0).1 :=
  ⟨by decide, growW_tol_mono bufTolArea ∅ 0 0 0 5 (by decide)⟩

/-! ### Entry-point failure semantics -/

/-- C7: when the source image fails to decode the entry point fails with
the load error before any grow work, and when the rendering context
cannot be acquired it fails with the runtime error; in both cases no
document is produced and the progress list is empty (no callback was
invoked). -/
theorem traceImageToSVG_failure :
    (∀ (ctxOk : Bool) (tol : ℕ),
      traceImageToSVG none ctxOk tol = (Except.error TraceError.loadError, [])) ∧
    (∀ (buf : PixelBuffer) (tol : ℕ),
      traceImageToSVG (some buf) false tol =
        (Except.error TraceError.runtimeError, [])) := by
  constructor
  · intro ctxOk tol; rfl
  · intro buf tol; rfl

/-! ### Target dimension derivation -/

/-- C8 (amended): the target dimensions are the floors of source size
times scale times super-sample factor computed in binary64 (each division
and multiplication correctly rounded); the scale is the minimum of the
two rounded bounding ratios and 1, so it never exceeds 1 and is never
negative, and for dimensions whose products stay below 2^53 (where the
host's doubles hold integers exactly) the target never exceeds the native
size times the super-sample factor. The exact-arithmetic formula of the
original claim can exceed the computed value by one
(`targetDims_cex`). -/
theorem targetDims_spec (srcW srcH maxW maxH ss : ℕ)
    (hsW : srcW ≤ 2 ^ 53) (hsH : srcH ≤ 2 ^ 53)
    (hWss : srcW * ss ≤ 2 ^ 53) (hHss : srcH * ss ≤ 2 ^ 53) :
    computeScale srcW srcH maxW maxH ≤ 1 ∧
    0 ≤ computeScale srcW srcH maxW maxH ∧
    targetDims srcW srcH maxW maxH ss =
      ((⌊jsMul (jsMul (srcW : ℚ) (computeScale srcW srcH maxW maxH))
          (ss : ℚ)⌋).toNat,
       (⌊jsMul (jsMul (srcH : ℚ) (computeScale srcW srcH maxW maxH))
          (ss : ℚ)⌋).toNat) ∧
    (targetDims srcW srcH maxW maxH ss).1 ≤ srcW * ss ∧
    (targetDims srcW srcH maxW maxH ss).2 ≤ srcH * ss := by
  have h1 : computeScale srcW srcH maxW maxH ≤ 1 := min_le_right _ _
  have h0 : 0 ≤ computeScale srcW srcH maxW maxH := by
    unfold computeScale jsDiv
    refine le_min (le_min ?_ ?_) (by norm_num) <;> exact roundDouble_nonneg _
  have key : ∀ n : ℕ, n ≤ 2 ^ 53 → n * ss ≤ 2 ^ 53 →
      (⌊jsMul (jsMul (n : ℚ) (computeScale srcW srcH maxW maxH))
        (ss : ℚ)⌋).toNat ≤ n * ss := by
    intro n hn hnss
    have hA : jsMul (n : ℚ) (computeScale srcW srcH maxW maxH) ≤ (n : ℚ) := by
      unfold jsMul
      have hle : (n:ℚ) * computeScale srcW srcH maxW maxH ≤ (n:ℚ) := by
        calc (n:ℚ) * computeScale srcW srcH maxW maxH
            ≤ (n:ℚ) * 1 := mul_le_mul_of_nonneg_left h1 (by positivity)
          _ = (n:ℚ) := mul_one _
      calc roundDouble ((n:ℚ) * computeScale srcW srcH maxW maxH)
          ≤ roundDouble (n:ℚ) := roundDouble_mono hle
        _ = (n:ℚ) := roundDouble_natCast n hn
    have hB : jsMul (jsMul (n:ℚ) (computeScale srcW srcH maxW maxH)) (ss:ℚ) ≤
        ((n * ss : ℕ) : ℚ) := by
      conv_lhs => unfold jsMul
      have hle2 : jsMul (n:ℚ) (computeScale srcW srcH maxW maxH) * ss ≤
          ((n * ss : ℕ):ℚ) := by
        push_cast
        exact mul_le_mul_of_nonneg_right hA (by positivity)
      calc roundDouble (jsMul (n:ℚ) (computeScale srcW srcH maxW maxH) * ss)
          ≤ roundDouble ((n * ss : ℕ):ℚ) := roundDouble_mono hle2
        _ = ((n * ss : ℕ):ℚ) := roundDouble_natCast _ hnss
    have hfloor : ⌊jsMul (jsMul (n:ℚ) (computeScale srcW srcH maxW maxH))
        (ss:ℚ)⌋ ≤ ((n * ss : ℕ) : ℤ) := by
      have h5 := Int.floor_le_floor hB
      rw [Int.floor_natCast] at h5
      exact h5
    exact Int.toNat_le.2 hfloor
  exact ⟨h1, h0, rfl, key srcW hsW hWss, key srcH hsH hHss⟩

/-! ### Transparent pixels -/

theorem stepPixel_transparent_tol (buf : PixelBuffer) (tol tol' y x : ℕ)
    (s : TraceState) (ha : alphaC (buf.data (y * buf.W + x)) < 2) :
    stepPixel buf tol y x s = stepPixel buf tol' y x s := by
  by_cases hv : y * buf.W + x ∈ s.visited
  · rw [stepPixel_of_visited buf tol y x s hv,
      stepPixel_of_visited buf tol' y x s hv]
  · rw [stepPixel_of_transparent buf tol y x s hv ha,
      stepPixel_of_transparent buf tol' y x s hv ha]

theorem processRow_transparent_tol (buf : PixelBuffer) (tol tol' y : ℕ)
    (s : TraceState) (halpha : ∀ i < buf.W * buf.H, alphaC (buf.data i) < 2)
    (hy : y < buf.H) : processRow buf tol y s = processRow buf tol' y s := by
  rw [processRow, processRow]
  refine foldl_congr_mem _ _ (List.range buf.W) s ?_
  intro s' x hx
  exact stepPixel_transparent_tol buf tol tol' y x s'
    (halpha _ (grid_lt hy (List.mem_range.1 hx)))

theorem processRows_transparent_tol (buf : PixelBuffer) (tol tol' : ℕ)
    (ys : List ℕ) (s : TraceState)
    (halpha : ∀ i < buf.W * buf.H, alphaC (buf.data i) < 2)
    (hys : ∀ y ∈ ys, y < buf.H) :
    processRows buf tol ys s = processRows buf tol' ys s := by
  rw [processRows, processRows]
  refine foldl_congr_mem _ _ ys s ?_
  intro s' y hy
  exact processRow_transparent_tol buf tol tol' y s' halpha (hys y hy)

theorem runBatches_transparent_tol (buf : PixelBuffer) (tol tol' : ℕ)
    (halpha : ∀ i < buf.W * buf.H, alphaC (buf.data i) < 2) :
    ∀ (fuel batchY : ℕ) (s : TraceState),
      runBatches buf tol batchY fuel s = runBatches buf tol' batchY fuel s := by
  intro fuel
  induction fuel with
  | zero => intro batchY s; rfl
  | succ n ih =>
    intro batchY s
    by_cases hb : batchY < buf.H
    · simp only [runBatches, if_pos hb]
      have hrows : processRows buf tol
          (List.range' batchY (min (batchY + 25) buf.H - batchY)) s =
          processRows buf tol'
            (List.range' batchY (min (batchY + 25) buf.H - batchY)) s := by
        refine processRows_transparent_tol buf tol tol' _ s halpha ?_
        intro y hy
        rw [mem_range'_iff] at hy
        omega
      rw [hrows, ih (batchY + 25)]
    · simp only [runBatches, if_neg hb]

theorem traceFinal_transparent_tol (buf : PixelBuffer) (tol tol' : ℕ)
    (halpha : ∀ i < buf.W * buf.H, alphaC (buf.data i) < 2) :
    traceFinal buf tol = traceFinal buf tol' := by
  rw [traceFinal, traceFinal, traceRun, traceRun,
    runBatches_transparent_tol buf tol tol' halpha buf.H 0 initState]

theorem trace_transparent_all (buf : PixelBuffer) (tol : ℕ)
    (halpha : ∀ i < buf.W * buf.H, alphaC (buf.data i) < 2) :
    (traceFinal buf tol).rects = [] ∧ (traceFinal buf tol).colorPaths = [] ∧
    traceDocument buf tol = svgDocument buf.W buf.H [] := by
  have hP : (traceFinal buf tol).rects = [] ∧
      (traceFinal buf tol).colorPaths = [] := by
    refine traceFinal_pres buf tol
      (fun s => s.rects = [] ∧ s.colorPaths = []) ?_ ⟨rfl, rfl⟩
    intro s y x hy hx hPs
    by_cases hv : y * buf.W + x ∈ s.visited
    · rw [stepPixel_of_visited buf tol y x s hv]; exact hPs
    · rw [stepPixel_of_transparent buf tol y x s hv (halpha _ (grid_lt hy hx))]
      exact hPs
  refine ⟨hP.1, hP.2, ?_⟩
  rw [traceDocument, hP.2]
  rfl

/-- C9 counterexample: in `bufLowAlpha` the pixel at index 1 has alpha 1
(below 2), yet with tolerance 1 it is absorbed into the rectangle grown
from the alpha-2 anchor at index 0: the trace skips nothing, and the
single committed 2-by-1 rectangle covers index 1 — a pixel with alpha
below 2 that does contribute geometry, so the claim's "regardless of the
tolerance setting" fails. -/
theorem transparent_geometry_cex :
    alphaC (bufLowAlpha.data 1) < 2 ∧
    (1 : ℕ) ∈ rectCells 2 0 0 2 1 ∧
    (traceFinal bufLowAlpha 1).skipped = [] ∧
    (traceFinal bufLowAlpha 1).rects = [⟨0, 0, 2, 1, 33554432⟩] := by
  decide

/-- C9 (amended): a pixel with alpha below 2 that the scan reaches while
still unvisited is marked visited and skipped with no geometry; any two
pixels with alphas below 2 are mutually similar at every tolerance; a
fully transparent buffer commits no rectangle, accumulates no path group
and serializes to a document with zero shape elements; and the adjacent
alpha-0/alpha-1 pair of different RGB is, at every tolerance, skipped
pixel by pixel with no geometry. However a pixel with alpha below 2 can
still be absorbed into a rectangle grown from an anchor of alpha 2 or
more when the tolerance covers the alpha difference
(`transparent_geometry_cex`). -/
theorem transparent_pixels_skip :
    (∀ (buf : PixelBuffer) (tol y x : ℕ) (s : TraceState),
        y * buf.W + x ∉ s.visited → alphaC (buf.data (y * buf.W + x)) < 2 →
        stepPixel buf tol y x s =
          { s with
            visited := insert (y * buf.W + x) s.visited
            processed := s.processed + 1
            skipped := s.skipped ++ [y * buf.W + x] }) ∧
    (∀ c1 c2 tol : ℕ, alphaC c1 < 2 → alphaC c2 < 2 →
        isColorSimilar c1 c2 tol = true) ∧
    (∀ (buf : PixelBuffer) (tol : ℕ),
        (∀ i < buf.W * buf.H, alphaC (buf.data i) < 2) →
        (traceFinal buf tol).rects = [] ∧
        (traceFinal buf tol).colorPaths = [] ∧
        traceDocument buf tol = svgDocument buf.W buf.H []) ∧
    (∀ tol : ℕ, (traceFinal bufPair tol).rects = [] ∧
        (traceFinal bufPair tol).skipped = [0, 1]) := by
  refine ⟨?_, ?_, ?_, ?_⟩
  · intro buf tol y x s hv ha
    exact stepPixel_of_transparent buf tol y x s hv ha
  · intro c1 c2 tol h1 h2
    unfold isColorSimilar
    by_cases he : c1 = c2
    · simp [he]
    · simp [if_neg he, h1, h2]
  · intro buf tol halpha
    exact trace_transparent_all buf tol halpha
  · intro tol
    have halpha : ∀ i < bufPair.W * bufPair.H, alphaC (bufPair.data i) < 2 := by
      decide
    have he : traceFinal bufPair tol = traceFinal bufPair 0 :=
      traceFinal_transparent_tol bufPair tol 0 halpha
    rw [he]
    exact ⟨by decide, by decide⟩

theorem transparent_pixels_skip_witness :
    isColorSimilar 255 16777315 7 = true ∧
    (traceFinal bufClear 0).rects = [] ∧
    (traceFinal bufPair 3).skipped = [0, 1] :=
  ⟨transparent_pixels_skip.2.1 255 16777315 7 (by decide) (by decide),
   (transparent_pixels_skip.2.2.1 bufClear 0 (by decide)).1,
   (transparent_pixels_skip.2.2.2 3).2⟩

/-! ### Committed rectangles are nonempty -/

/-- C10: every rectangle committed during a trace has width and height at
least 1: the anchor is unvisited and similar to itself, so horizontal
growth succeeds at least once, and vertical growth starts at 1. -/
theorem rects_nonempty (buf : PixelBuffer) (tol : ℕ) (r : RegionRect)
    (hr : r ∈ (traceFinal buf tol).rects) : 1 ≤ r.w ∧ 1 ≤ r.h := by
  have h := (traceFinal_inv buf tol).rects_ok r hr
  exact ⟨h.1, h.2.1⟩

theorem rects_nonempty_witness :
    (⟨0, 0, 1, 1, 4278190080⟩ : RegionRect) ∈ (traceFinal bufOne 0).rects ∧
    ((1 : ℕ) ≤ 1 ∧ (1 : ℕ) ≤ 1) :=
  ⟨by decide, rects_nonempty bufOne 0 ⟨0, 0, 1, 1, 4278190080⟩ (by decide)⟩

/-! ### Remaining concrete witnesses -/

theorem trace_uniform_witness :
    alphaC 4278190080 = 255 ∧
    (traceFinal bufUniform 3).rects = [⟨0, 0, 2, 2, 4278190080⟩] :=
  ⟨by decide, (trace_uniform bufUniform 4278190080 3 (fun _ => rfl)
    (by decide) (by decide) (by decide)).1⟩

theorem trace_progress_witness :
    0 < bufOne.W ∧ 0 < bufOne.H ∧ (traceProg bufOne 0).getLast? = some 100 :=
  ⟨by decide, by decide, (trace_progress bufOne 0 (by decide) (by decide)).2.2⟩

theorem trace_serializer_witness :
    ((traceFinal bufTolArea 1).colorPaths.map Prod.fst).Nodup ∧
    (traceFinal bufTolArea 1).colorPaths.map Prod.fst =
      dedupFirst ((traceFinal bufTolArea 1).rects.map RegionRect.color) :=
  ⟨(trace_serializer bufTolArea 1).1, (trace_serializer bufTolArea 1).2.1⟩

/-! ### Concrete binary64 evaluations and the two float counterexamples -/

theorem progressValue_29_50 : progressValue 29 50 = 57 := by
  have hdr : roundDouble (((29:ℕ):ℚ) / ((50:ℕ):ℚ)) =
      ((5224175567749775:ℤ) : ℚ) / 2 ^ ((52:ℤ) - (-1)) := by
    apply roundDouble_eval_down _ (-1) _ (by norm_num) (by norm_num) (by norm_num)
    · rw [Int.floor_eq_iff]
      constructor <;> norm_num
    · norm_num
  have hd : jsDiv ((29:ℕ):ℚ) ((50:ℕ):ℚ) =
      (5224175567749775 : ℚ) / 9007199254740992 := by
    unfold jsDiv
    rw [hdr]
    norm_num
  have hmr : roundDouble ((5224175567749775 : ℚ) / 9007199254740992 * 100) =
      ((8162774324609023:ℤ) : ℚ) / 2 ^ ((52:ℤ) - 5) := by
    apply roundDouble_eval_down _ 5 _ (by norm_num) (by norm_num) (by norm_num)
    · rw [Int.floor_eq_iff]
      constructor <;> norm_num
    · norm_num
  have hm : jsMul ((5224175567749775 : ℚ) / 9007199254740992) 100 =
      (8162774324609023 : ℚ) / 140737488355328 := by
    unfold jsMul
    rw [hmr]
    norm_num
  have hf : ⌊(8162774324609023 : ℚ) / 140737488355328⌋ = 57 := by
    rw [Int.floor_eq_iff]
    constructor <;> norm_num
  unfold progressValue
  rw [hd, hm, hf]
  rfl

theorem runBatches_head (buf : PixelBuffer) (tol fuel batchY : ℕ)
    (s : TraceState) (hb : batchY < buf.H) :
    (runBatches buf tol batchY (fuel + 1) s).2.head? =
      some (progressValue
        (processRows buf tol
          (List.range' batchY (min (batchY + 25) buf.H - batchY)) s).processed
        (buf.W * buf.H)) := by
  simp only [runBatches, if_pos hb, List.head?_cons]

set_option maxRecDepth 4000 in
/-- C5 counterexample: on a 1-by-50 buffer whose first greedy rectangle
covers rows 0..28 (so 29 of 50 pixels are processed when the first 25-row
batch ends), the program reports 57 — the floor of the binary64
computation `(29 / 50) * 100 = 57.99999999999999` — while the claimed
exact formula `floor(29 * 100 / 50)` gives 58. -/
theorem trace_progress_cex :
    (traceProg bufProg 0).head? = some (progressValue 29 50) ∧
    progressValue 29 50 = 57 ∧
    29 * 100 / 50 = 58 := by
  refine ⟨?_, progressValue_29_50, by norm_num⟩
  have h1 : traceProg bufProg 0 = (runBatches bufProg 0 0 (49 + 1) initState).2 :=
    rfl
  rw [h1, runBatches_head bufProg 0 49 0 initState (by decide)]
  have hX : (processRows bufProg 0
      (List.range' 0 (min (0 + 25) bufProg.H - 0)) initState).processed = 29 := by
    decide
  rw [hX]
  rfl

/-- C8 counterexample: for a 22-by-22 source bounded to 15-by-15 with
super-sample 1, the program computes target dimensions 14-by-14 (the
double quotient 15/22 times 22 lands just below 15 and the floor drops
it), while the claimed exact formula gives 15-by-15. -/
theorem targetDims_cex :
    targetDims 22 22 15 15 1 = (14, 14) ∧
    targetDimsExact 22 22 15 15 1 = (15, 15) := by
  constructor
  · have hqr : roundDouble (((15:ℕ):ℚ) / ((22:ℕ):ℚ)) =
        ((6141272219141585:ℤ) : ℚ) / 2 ^ ((52:ℤ) - (-1)) := by
      apply roundDouble_eval_down _ (-1) _ (by norm_num) (by norm_num) (by norm_num)
      · rw [Int.floor_eq_iff]
        constructor <;> norm_num
      · norm_num
    have hq : jsDiv ((15:ℕ):ℚ) ((22:ℕ):ℚ) =
        (6141272219141585 : ℚ) / 9007199254740992 := by
      unfold jsDiv
      rw [hqr]
      norm_num
    have hscale : computeScale 22 22 15 15 =
        (6141272219141585 : ℚ) / 9007199254740992 := by
      unfold computeScale
      rw [hq, min_self]
      exact min_eq_left (by norm_num)
    have hm1r : roundDouble (((22:ℕ):ℚ) *
        ((6141272219141585 : ℚ) / 9007199254740992)) =
        ((8444249301319679:ℤ) : ℚ) / 2 ^ ((52:ℤ) - 3) := by
      apply roundDouble_eval_down _ 3 _ (by norm_num) (by norm_num) (by norm_num)
      · rw [Int.floor_eq_iff]
        constructor <;> norm_num
      · norm_num
    have hm1 : jsMul ((22:ℕ):ℚ) ((6141272219141585 : ℚ) / 9007199254740992) =
        (8444249301319679 : ℚ) / 562949953421312 := by
      unfold jsMul
      rw [hm1r]
      norm_num
    have hm2r : roundDouble (((8444249301319679 : ℚ) / 562949953421312) *
        ((1:ℕ):ℚ)) =
        ((8444249301319679:ℤ) : ℚ) / 2 ^ ((52:ℤ) - 3) := by
      apply roundDouble_eval_down _ 3 _ (by norm_num) (by norm_num) (by norm_num)
      · rw [Int.floor_eq_iff]
        constructor <;> norm_num
      · norm_num
    have hm2 : jsMul ((8444249301319679 : ℚ) / 562949953421312) ((1:ℕ):ℚ) =
        (8444249301319679 : ℚ) / 562949953421312 := by
      unfold jsMul
      rw [hm2r]
      norm_num
    have hfloor : ⌊(8444249301319679 : ℚ) / 562949953421312⌋ = 14 := by
      rw [Int.floor_eq_iff]
      constructor <;> norm_num
    show targetDims 22 22 15 15 1 = (14, 14)
    simp only [targetDims]
    rw [hscale, hm1, hm2, hfloor]
    rfl
  · unfold targetDimsExact computeScaleExact
    rw [min_self, min_eq_left (by norm_num : ((15:ℕ):ℚ) / ((22:ℕ):ℚ) ≤ 1)]
    norm_num [Prod.mk.injEq]

theorem targetDims_spec_witness :
    (22:ℕ) ≤ 2 ^ 53 ∧ 22 * 1 ≤ 2 ^ 53 ∧
    computeScale 22 22 15 15 ≤ 1 ∧
    (targetDims 22 22 15 15 1).1 ≤ 22 * 1 :=
  ⟨by decide, by decide,
   (targetDims_spec 22 22 15 15 1 (by decide) (by decide) (by decide)
     (by decide)).1,
   (targetDims_spec 22 22 15 15 1 (by decide) (by decide) (by decide)
     (by decide)).2.2.2.1⟩
